import Mathlib

/-!
Verification development for a computational-graph engine over streams of
tabular rows (Python source: `compgraph/operations.py`, `compgraph/graph.py`).

Rows are Python dicts from column name to a dynamic value.  We embed a row as
an association list with unique keys (the dict invariant), value type `α`
(instantiated with `Val` below when mixed int/string/rational values are
needed).  Python dict operations are translated as:
  * `row[c]`        → `rget r c` (first matching entry; unique under `Nodup`)
  * `c in row`      → `rhas r c`
  * `row[c] = v`    → `rset r c v` (replace in place if present, else append —
                      exactly CPython's insertion-order semantics)
`KeyError` on a missing column is not modelled; every theorem that reads a
column carries the corresponding presence hypothesis, and `getD` returns a
junk default that the hypotheses make irrelevant.
-/

namespace CompGraph

/-- Dynamic row values: Python ints, strings, and numbers produced by true
division (modelled exactly as rationals rather than IEEE floats). -/
inductive Val where
  | int : Int → Val
  | str : String → Val
  | rat : Rat → Val
deriving DecidableEq

instance : Inhabited Val := ⟨Val.int 0⟩

abbrev Row (α : Type) := List (String × α)

/-- `row[c]` — value at the first entry for column `c`. -/
def rget {α : Type} : Row α → String → Option α
  | [], _ => none
  | p :: r, c => if p.1 = c then some p.2 else rget r c

/-- `c in row`. -/
def rhas {α : Type} : Row α → String → Bool
  | [], _ => false
  | p :: r, c => decide (p.1 = c) || rhas r c

/-- `row[c] = v`: replace the (unique) entry for `c` in place, else append —
CPython dict assignment. -/
def rset {α : Type} : Row α → String → α → Row α
  | [], c, v => [(c, v)]
  | p :: r, c, v => if p.1 = c then (c, v) :: r else p :: rset r c v

/-- Column names of a row, in dict order. -/
def rkeys {α : Type} (r : Row α) : List String := r.map Prod.fst

/-- Total lookup with a junk default (used only under presence hypotheses). -/
def getD {α : Type} [Inhabited α] (r : Row α) (c : String) : α :=
  (rget r c).getD default

/-- Successive dict assignments `m[k] = v` for each pair in order. -/
def insertList {α : Type} (m : Row α) (ps : List (String × α)) : Row α :=
  ps.foldl (fun m p => rset m p.1 p.2) m

section RowLemmas

variable {α : Type}

theorem rget_rset_self (r : Row α) (c : String) (v : α) :
    rget (rset r c v) c = some v := by
  induction r with
  | nil => simp [rget, rset]
  | cons p r ih =>
    by_cases h : p.1 = c
    · simp [rset, h, rget]
    · simp [rset, h, rget, ih]

theorem rget_rset_ne (r : Row α) {c c' : String} (v : α) (h : c' ≠ c) :
    rget (rset r c v) c' = rget r c' := by
  induction r with
  | nil =>
    simp only [rset, rget]
    rw [if_neg (fun hh : c = c' => h hh.symm)]
  | cons p r ih =>
    by_cases hp : p.1 = c
    · simp only [rset, if_pos hp, rget]
      rw [if_neg (fun hh : c = c' => h hh.symm),
        if_neg (fun hh : p.1 = c' => h (hp.symm.trans hh).symm)]
    · simp only [rset, if_neg hp, rget]
      rw [ih]

theorem rkeys_cons (p : String × α) (r : Row α) :
    rkeys (p :: r) = p.1 :: rkeys r := rfl

theorem rhas_iff_mem_rkeys (r : Row α) (c : String) :
    rhas r c = true ↔ c ∈ rkeys r := by
  induction r with
  | nil => simp [rhas, rkeys]
  | cons p r ih =>
    by_cases h : p.1 = c
    · simp [rhas, rkeys_cons, h]
    · rw [rkeys_cons]
      simp only [rhas, Bool.or_eq_true, decide_eq_true_eq, List.mem_cons]
      constructor
      · rintro (hh | hh)
        · exact absurd hh h
        · exact Or.inr (ih.mp hh)
      · rintro (hh | hh)
        · exact absurd hh.symm h
        · exact Or.inr (ih.mpr hh)

theorem rget_isSome_of_rhas {r : Row α} {c : String} (h : rhas r c = true) :
    (rget r c).isSome := by
  induction r with
  | nil => simp [rhas] at h
  | cons p r ih =>
    by_cases hp : p.1 = c
    · simp [rget, hp]
    · simp [rhas, hp] at h
      simp [rget, hp, ih h]

theorem rkeys_rset_toFinset (r : Row α) (c : String) (v : α) :
    (rkeys (rset r c v)).toFinset = insert c (rkeys r).toFinset := by
  induction r with
  | nil => simp [rset, rkeys]
  | cons p r ih =>
    by_cases h : p.1 = c
    · simp [rset, h, rkeys_cons, Finset.insert_idem]
    · simp only [rset, if_neg h, rkeys_cons, List.toFinset_cons]
      rw [ih, Finset.Insert.comm]

theorem insertList_append (m : Row α) (ps qs : List (String × α)) :
    insertList m (ps ++ qs) = insertList (insertList m ps) qs :=
  List.foldl_append ..

theorem insertList_cons (m : Row α) (p : String × α) (ps : List (String × α)) :
    insertList m (p :: ps) = insertList (rset m p.1 p.2) ps := rfl

theorem rget_insertList_of_not_mem {c : String} (m : Row α)
    {ps : List (String × α)} (h : c ∉ ps.map Prod.fst) :
    rget (insertList m ps) c = rget m c := by
  induction ps generalizing m with
  | nil => rfl
  | cons p ps ih =>
    simp only [List.map_cons, List.mem_cons] at h
    push_neg at h
    rw [insertList_cons, ih _ h.2, rget_rset_ne _ _ h.1]

theorem rget_insertList_last (m : Row α) (ps qs : List (String × α))
    (c : String) (v : α) (h : c ∉ qs.map Prod.fst) :
    rget (insertList m (ps ++ (c, v) :: qs)) c = some v := by
  rw [insertList_append, insertList_cons, rget_insertList_of_not_mem _ h,
    rget_rset_self]

theorem rkeys_insertList_toFinset (m : Row α) (ps : List (String × α)) :
    (rkeys (insertList m ps)).toFinset =
      (rkeys m).toFinset ∪ (ps.map Prod.fst).toFinset := by
  induction ps generalizing m with
  | nil => simp [insertList]
  | cons p ps ih =>
    rw [insertList_cons, ih, rkeys_rset_toFinset]
    simp [Finset.insert_union, Finset.union_insert]

end RowLemmas

/-!
## Joiner row-merge (`Joiner._merge_rows`, operations.py 119–133)

The Python method builds a fresh dict and performs, in order:
  1. `merged[k] = row_a[k]` for each `k` in `keys`;
  2. for each `c` in `common_cols = (cols_a & cols_b) - set(keys)`:
     `merged[c+sufA] = row_a[c]; merged[c+sufB] = row_b[c]`;
  3. `merged[c] = row_a[c]` for each `c` in `cols_a - common_cols`;
  4. `merged[c] = row_b[c]` for each `c` in `cols_b - common_cols`.
Python iterates these *sets* in an unspecified order; we fix the order of
first appearance in each row (one possible execution).  Every property proved
below is independent of that enumeration order.
-/

/-- `common_cols = (cols_a & cols_b) - set(keys)`, enumerated in `A`'s order. -/
def commonCols {α : Type} (keys : List String) (A B : Row α) : List String :=
  (rkeys A).filter (fun c => rhas B c && !(decide (c ∈ keys)))

/-- `cols_r - common_cols`, enumerated in `r`'s dict order. -/
def restCols {α : Type} (keys : List String) (A B : Row α) (r : Row α) :
    List String :=
  (rkeys r).filter (fun c => !(decide (c ∈ commonCols keys A B)))

/-- The successive dict assignments performed by `_merge_rows`, in source
order (key loop, common-column suffix loop, `cols_a - common`, then
`cols_b - common`). -/
def mergePairs {α : Type} [Inhabited α] (keys : List String) (sufA sufB : String)
    (A B : Row α) : List (String × α) :=
  keys.map (fun k => (k, getD A k))
    ++ (commonCols keys A B).flatMap
      (fun c => [(c ++ sufA, getD A c), (c ++ sufB, getD B c)])
    ++ (restCols keys A B A).map (fun c => (c, getD A c))
    ++ (restCols keys A B B).map (fun c => (c, getD B c))

/-- `Joiner._merge_rows`: the merged row is the dict obtained by the
assignment sequence `mergePairs` applied to an empty dict. -/
def mergeRows {α : Type} [Inhabited α] (keys : List String) (sufA sufB : String)
    (A B : Row α) : Row α :=
  insertList [] (mergePairs keys sufA sufB A B)

section MergeLemmas

variable {α : Type}

theorem rget_eq_some_getD [Inhabited α] {r : Row α} {c : String}
    (h : rhas r c = true) : rget r c = some (getD r c) := by
  have hs := rget_isSome_of_rhas h
  cases hr : rget r c with
  | none => rw [hr] at hs; simp at hs
  | some v => simp [getD, hr]

theorem exists_split_of_nodup_mem {l : List String} {x : String}
    (hl : l.Nodup) (hx : x ∈ l) :
    ∃ l₁ l₂, l = l₁ ++ x :: l₂ ∧ x ∉ l₂ := by
  obtain ⟨l₁, l₂, rfl⟩ := List.mem_iff_append.mp hx
  refine ⟨l₁, l₂, rfl, ?_⟩
  have := (List.nodup_cons.mp (hl.of_append_right)).1
  exact this

theorem rget_insertList_split (m : Row α) {ps : List (String × α)}
    {c : String} {v : α}
    (h : ∃ l₁ l₂, ps = l₁ ++ (c, v) :: l₂ ∧ c ∉ l₂.map Prod.fst) :
    rget (insertList m ps) c = some v := by
  obtain ⟨l₁, l₂, rfl, hmem⟩ := h
  exact rget_insertList_last m l₁ l₂ c v hmem

theorem mem_commonCols_iff (keys : List String) (A B : Row α) (c : String) :
    c ∈ commonCols keys A B ↔ c ∈ rkeys A ∧ c ∈ rkeys B ∧ c ∉ keys := by
  simp only [commonCols, List.mem_filter, Bool.and_eq_true, Bool.not_eq_true',
    decide_eq_false_iff_not, rhas_iff_mem_rkeys]

theorem nodup_commonCols {keys : List String} {A B : Row α}
    (hA : (rkeys A).Nodup) : (commonCols keys A B).Nodup :=
  hA.filter _

theorem mem_restCols_iff (keys : List String) (A B r : Row α) (c : String) :
    c ∈ restCols keys A B r ↔ c ∈ rkeys r ∧ c ∉ commonCols keys A B := by
  simp [restCols, List.mem_filter]

variable [Inhabited α]

theorem map_fst_tag (r : Row α) (l : List String) :
    (l.map (fun c => (c, getD r c))).map Prod.fst = l := by
  rw [List.map_map]
  exact List.map_id' l

theorem map_fst_suf (A B : Row α) (sufA sufB : String) (l : List String) :
    ((l.flatMap fun c => [(c ++ sufA, getD A c), (c ++ sufB, getD B c)]).map
      Prod.fst) = l.flatMap fun c => [c ++ sufA, c ++ sufB] := by
  rw [List.map_flatMap]
  simp

theorem merge_rget_right {keys : List String} {sufA sufB : String}
    {A B : Row α} {x : String} (hB : (rkeys B).Nodup) (hx : x ∈ rkeys B)
    (hc : x ∉ commonCols keys A B) :
    rget (mergeRows keys sufA sufB A B) x = some (getD B x) := by
  apply rget_insertList_split
  have hmem : x ∈ restCols keys A B B := (mem_restCols_iff ..).mpr ⟨hx, hc⟩
  obtain ⟨l₁, l₂, hsplit, hnot⟩ :=
    exists_split_of_nodup_mem (hB.filter _) hmem
  refine ⟨keys.map (fun k => (k, getD A k))
      ++ (commonCols keys A B).flatMap
        (fun c => [(c ++ sufA, getD A c), (c ++ sufB, getD B c)])
      ++ (restCols keys A B A).map (fun c => (c, getD A c))
      ++ l₁.map (fun c => (c, getD B c)),
    l₂.map (fun c => (c, getD B c)), ?_, ?_⟩
  · have : restCols keys A B B = l₁ ++ x :: l₂ := hsplit
    simp only [mergePairs, this, List.map_append, List.map_cons,
      List.append_assoc, List.cons_append]
  · rw [map_fst_tag]
    exact hnot

theorem merge_rget_leftOnly {keys : List String} {sufA sufB : String}
    {A B : Row α} {x : String} (hA : (rkeys A).Nodup) (hx : x ∈ rkeys A)
    (hc : x ∉ commonCols keys A B) (hxB : x ∉ rkeys B) :
    rget (mergeRows keys sufA sufB A B) x = some (getD A x) := by
  apply rget_insertList_split
  have hmem : x ∈ restCols keys A B A := (mem_restCols_iff ..).mpr ⟨hx, hc⟩
  obtain ⟨l₁, l₂, hsplit, hnot⟩ :=
    exists_split_of_nodup_mem (hA.filter _) hmem
  refine ⟨keys.map (fun k => (k, getD A k))
      ++ (commonCols keys A B).flatMap
        (fun c => [(c ++ sufA, getD A c), (c ++ sufB, getD B c)])
      ++ l₁.map (fun c => (c, getD A c)),
    l₂.map (fun c => (c, getD A c))
      ++ (restCols keys A B B).map (fun c => (c, getD B c)), ?_, ?_⟩
  · have : restCols keys A B A = l₁ ++ x :: l₂ := hsplit
    simp only [mergePairs, this, List.map_append, List.map_cons,
      List.append_assoc, List.cons_append]
  · rw [List.map_append, map_fst_tag, map_fst_tag]
    intro hmm
    rcases List.mem_append.mp hmm with hmm | hmm
    · exact hnot hmm
    · exact hxB ((mem_restCols_iff keys A B B x).mp hmm).1

theorem merge_rget_sufA {keys : List String} {sufA sufB : String}
    {A B : Row α} {c : String} (hA : (rkeys A).Nodup)
    (hc : c ∈ commonCols keys A B)
    (h1 : c ++ sufA ≠ c ++ sufB)
    (h2 : ∀ c' ∈ commonCols keys A B, c' ≠ c →
      c ++ sufA ≠ c' ++ sufA ∧ c ++ sufA ≠ c' ++ sufB)
    (h3 : ∀ x ∈ rkeys A, c ++ sufA ≠ x)
    (h4 : ∀ x ∈ rkeys B, c ++ sufA ≠ x) :
    rget (mergeRows keys sufA sufB A B) (c ++ sufA) = some (getD A c) := by
  apply rget_insertList_split
  obtain ⟨m₁, m₂, hsplit, hnot⟩ :=
    exists_split_of_nodup_mem (nodup_commonCols hA) hc
  have hm₂ : ∀ c' ∈ m₂, c' ∈ commonCols keys A B ∧ c' ≠ c := by
    intro c' hc'
    refine ⟨hsplit ▸ (List.mem_append.mpr (Or.inr (List.mem_cons_of_mem _ hc'))),
      fun h => hnot (h ▸ hc')⟩
  refine ⟨keys.map (fun k => (k, getD A k))
      ++ m₁.flatMap (fun c => [(c ++ sufA, getD A c), (c ++ sufB, getD B c)]),
    (c ++ sufB, getD B c)
      :: (m₂.flatMap (fun c => [(c ++ sufA, getD A c), (c ++ sufB, getD B c)])
      ++ (restCols keys A B A).map (fun c => (c, getD A c))
      ++ (restCols keys A B B).map (fun c => (c, getD B c))), ?_, ?_⟩
  · simp only [mergePairs, hsplit, List.flatMap_append, List.flatMap_cons,
      List.append_assoc, List.cons_append, List.nil_append]
  · rw [List.map_cons, List.map_append, List.map_append, map_fst_suf,
      map_fst_tag, map_fst_tag]
    intro hmm
    rcases List.mem_cons.mp hmm with heq | hmm
    · exact h1 heq
    rcases List.mem_append.mp hmm with hmm | hmm
    rotate_left
    · exact h4 _ ((mem_restCols_iff keys A B B _).mp hmm).1 rfl
    rcases List.mem_append.mp hmm with hmm | hmm
    rotate_left
    · exact h3 _ ((mem_restCols_iff keys A B A _).mp hmm).1 rfl
    · simp only [List.mem_flatMap, List.mem_cons, List.not_mem_nil, or_false,
        List.mem_singleton] at hmm
      obtain ⟨c', hc', heq⟩ := hmm
      obtain ⟨hcc, hne⟩ := hm₂ c' hc'
      rcases heq with heq | heq
      · exact (h2 c' hcc hne).1 heq
      · exact (h2 c' hcc hne).2 heq

theorem merge_rget_sufB {keys : List String} {sufA sufB : String}
    {A B : Row α} {c : String} (hA : (rkeys A).Nodup)
    (hc : c ∈ commonCols keys A B)
    (h2 : ∀ c' ∈ commonCols keys A B, c' ≠ c →
      c ++ sufB ≠ c' ++ sufA ∧ c ++ sufB ≠ c' ++ sufB)
    (h3 : ∀ x ∈ rkeys A, c ++ sufB ≠ x)
    (h4 : ∀ x ∈ rkeys B, c ++ sufB ≠ x) :
    rget (mergeRows keys sufA sufB A B) (c ++ sufB) = some (getD B c) := by
  apply rget_insertList_split
  obtain ⟨m₁, m₂, hsplit, hnot⟩ :=
    exists_split_of_nodup_mem (nodup_commonCols hA) hc
  have hm₂ : ∀ c' ∈ m₂, c' ∈ commonCols keys A B ∧ c' ≠ c := by
    intro c' hc'
    refine ⟨hsplit ▸ (List.mem_append.mpr (Or.inr (List.mem_cons_of_mem _ hc'))),
      fun h => hnot (h ▸ hc')⟩
  refine ⟨keys.map (fun k => (k, getD A k))
      ++ m₁.flatMap (fun c => [(c ++ sufA, getD A c), (c ++ sufB, getD B c)])
      ++ [(c ++ sufA, getD A c)],
    m₂.flatMap (fun c => [(c ++ sufA, getD A c), (c ++ sufB, getD B c)])
      ++ (restCols keys A B A).map (fun c => (c, getD A c))
      ++ (restCols keys A B B).map (fun c => (c, getD B c)), ?_, ?_⟩
  · simp only [mergePairs, hsplit, List.flatMap_append, List.flatMap_cons,
      List.append_assoc, List.cons_append, List.nil_append]
  · rw [List.map_append, List.map_append, map_fst_suf, map_fst_tag,
      map_fst_tag]
    intro hmm
    rcases List.mem_append.mp hmm with hmm | hmm
    rotate_left
    · exact h4 _ ((mem_restCols_iff keys A B B _).mp hmm).1 rfl
    rcases List.mem_append.mp hmm with hmm | hmm
    rotate_left
    · exact h3 _ ((mem_restCols_iff keys A B A _).mp hmm).1 rfl
    · simp only [List.mem_flatMap, List.mem_cons, List.not_mem_nil, or_false,
        List.mem_singleton] at hmm
      obtain ⟨c', hc', heq⟩ := hmm
      obtain ⟨hcc, hne⟩ := hm₂ c' hc'
      rcases heq with heq | heq
      · exact (h2 c' hcc hne).1 heq
      · exact (h2 c' hcc hne).2 heq

end MergeLemmas

/-- C1, counterexample.  Take K = ["k"], A = {k: 1}, B = {k: 2}: the key "k"
is present in both rows, yet the merged row's column "k" holds B's value 2,
not A's value 1 — the loop over `cols_b - common_cols` re-assigns every key
column after the initial `merged[k] = row_a[k]`.  This refutes the claim's
"column k holding A's value for each k in K". -/
theorem C1_counterexample :
    rhas ([("k", Val.int 1)] : Row Val) "k" = true ∧
    rhas ([("k", Val.int 2)] : Row Val) "k" = true ∧
    rget (mergeRows ["k"] "_1" "_2" ([("k", Val.int 1)] : Row Val)
      [("k", Val.int 2)]) "k" = some (Val.int 2) ∧
    rget (mergeRows ["k"] "_1" "_2" ([("k", Val.int 1)] : Row Val)
      [("k", Val.int 2)]) "k" ≠ some (Val.int 1) := by
  refine ⟨rfl, rfl, by decide, by decide⟩

/-- C1, amended.  For every key list K and rows A and B with every key of K
present in both rows (rows being dicts, with distinct column names), and with
the suffixed names `c+sufA`, `c+sufB` (c in C = (columns(A) ∩ columns(B)) \ K)
pairwise distinct and distinct from all columns of A and B: the merged row has
column k holding **B's** value for each k in K (A's and B's values coincide in
every actual join, where the two groups agree on the key tuple), the pair
`c+sufA`/`c+sufB` holding A's and B's value for each c in C, every column of A
not in C and not in K unchanged, every column of B not in C and not in K
unchanged, and its column set is exactly K plus the suffixed pairs plus those
remaining columns of A and B. -/
theorem C1_mergeRows_amended {α : Type} [Inhabited α] (keys : List String)
    (sufA sufB : String) (A B : Row α)
    (hA : (rkeys A).Nodup) (hB : (rkeys B).Nodup)
    (hK : ∀ k ∈ keys, rhas A k = true ∧ rhas B k = true)
    (hfresh : ∀ c ∈ commonCols keys A B, ∀ x ∈ rkeys A ++ rkeys B,
      c ++ sufA ≠ x ∧ c ++ sufB ≠ x)
    (hinj : ∀ c ∈ commonCols keys A B, ∀ c' ∈ commonCols keys A B,
      c ++ sufA ≠ c' ++ sufB ∧
      (c ≠ c' → c ++ sufA ≠ c' ++ sufA ∧ c ++ sufB ≠ c' ++ sufB)) :
    (commonCols keys A B).toFinset =
      ((rkeys A).toFinset ∩ (rkeys B).toFinset) \ keys.toFinset ∧
    (∀ k ∈ keys, rget (mergeRows keys sufA sufB A B) k = rget B k) ∧
    (∀ c ∈ commonCols keys A B,
      rget (mergeRows keys sufA sufB A B) (c ++ sufA) = rget A c ∧
      rget (mergeRows keys sufA sufB A B) (c ++ sufB) = rget B c) ∧
    (∀ d ∈ rkeys A, d ∉ commonCols keys A B → d ∉ keys →
      rget (mergeRows keys sufA sufB A B) d = rget A d) ∧
    (∀ e ∈ rkeys B, e ∉ commonCols keys A B → e ∉ keys →
      rget (mergeRows keys sufA sufB A B) e = rget B e) ∧
    (rkeys (mergeRows keys sufA sufB A B)).toFinset =
      keys.toFinset
        ∪ ((commonCols keys A B).map (fun c => c ++ sufA)).toFinset
        ∪ ((commonCols keys A B).map (fun c => c ++ sufB)).toFinset
        ∪ (((rkeys A).toFinset \ (commonCols keys A B).toFinset) \ keys.toFinset)
        ∪ (((rkeys B).toFinset \ (commonCols keys A B).toFinset) \ keys.toFinset)
    := by
  refine ⟨?_, ?_, ?_, ?_, ?_, ?_⟩
  · ext x
    simp only [List.mem_toFinset, Finset.mem_sdiff, Finset.mem_inter,
      mem_commonCols_iff]
    tauto
  · intro k hk
    have hkB : k ∈ rkeys B := (rhas_iff_mem_rkeys ..).mp (hK k hk).2
    have hkC : k ∉ commonCols keys A B :=
      fun hcc => ((mem_commonCols_iff ..).mp hcc).2.2 hk
    rw [merge_rget_right hB hkB hkC]
    exact (rget_eq_some_getD (hK k hk).2).symm
  · intro c hcm
    have hcA : c ∈ rkeys A := ((mem_commonCols_iff ..).mp hcm).1
    have hcB : c ∈ rkeys B := ((mem_commonCols_iff ..).mp hcm).2.1
    constructor
    · rw [merge_rget_sufA hA hcm ((hinj c hcm c hcm).1)
        (fun c' hc' hne => ⟨((hinj c hcm c' hc').2 (Ne.symm hne)).1,
          (hinj c hcm c' hc').1⟩)
        (fun x hx => (hfresh c hcm x (List.mem_append.mpr (Or.inl hx))).1)
        (fun x hx => (hfresh c hcm x (List.mem_append.mpr (Or.inr hx))).1)]
      exact (rget_eq_some_getD ((rhas_iff_mem_rkeys ..).mpr hcA)).symm
    · rw [merge_rget_sufB hA hcm
        (fun c' hc' hne => ⟨Ne.symm (hinj c' hc' c hcm).1,
          ((hinj c hcm c' hc').2 (Ne.symm hne)).2⟩)
        (fun x hx => (hfresh c hcm x (List.mem_append.mpr (Or.inl hx))).2)
        (fun x hx => (hfresh c hcm x (List.mem_append.mpr (Or.inr hx))).2)]
      exact (rget_eq_some_getD ((rhas_iff_mem_rkeys ..).mpr hcB)).symm
  · intro d hd hdc hdk
    have hdB : d ∉ rkeys B :=
      fun hdb => hdc ((mem_commonCols_iff ..).mpr ⟨hd, hdb, hdk⟩)
    rw [merge_rget_leftOnly hA hd hdc hdB]
    exact (rget_eq_some_getD ((rhas_iff_mem_rkeys ..).mpr hd)).symm
  · intro e he hec _
    rw [merge_rget_right hB he hec]
    exact (rget_eq_some_getD ((rhas_iff_mem_rkeys ..).mpr he)).symm
  · rw [mergeRows, rkeys_insertList_toFinset,
      show (rkeys ([] : Row α)).toFinset = ∅ from rfl, Finset.empty_union]
    rw [show mergePairs keys sufA sufB A B =
        keys.map (fun k => (k, getD A k))
        ++ ((commonCols keys A B).flatMap
          (fun c => [(c ++ sufA, getD A c), (c ++ sufB, getD B c)])
        ++ ((restCols keys A B A).map (fun c => (c, getD A c))
        ++ (restCols keys A B B).map (fun c => (c, getD B c))))
      from by simp [mergePairs, List.append_assoc]]
    rw [List.map_append, List.map_append, List.map_append, map_fst_tag,
      map_fst_suf, map_fst_tag, map_fst_tag]
    ext x
    simp only [List.toFinset_append, Finset.mem_union, List.mem_toFinset,
      List.mem_flatMap, List.mem_cons, List.not_mem_nil, or_false,
      List.mem_singleton, List.mem_map, mem_restCols_iff, Finset.mem_sdiff]
    constructor
    · rintro (hx | (⟨c, hcm, (rfl | rfl)⟩ | (⟨hxa, hxc⟩ | ⟨hxb, hxc⟩)))
      · exact Or.inl (Or.inl (Or.inl (Or.inl hx)))
      · exact Or.inl (Or.inl (Or.inl (Or.inr ⟨c, hcm, rfl⟩)))
      · exact Or.inl (Or.inl (Or.inr ⟨c, hcm, rfl⟩))
      · by_cases hk : x ∈ keys
        · exact Or.inl (Or.inl (Or.inl (Or.inl hk)))
        · exact Or.inl (Or.inr ⟨⟨hxa, hxc⟩, hk⟩)
      · by_cases hk : x ∈ keys
        · exact Or.inl (Or.inl (Or.inl (Or.inl hk)))
        · exact Or.inr ⟨⟨hxb, hxc⟩, hk⟩
    · rintro ((((hx | ⟨c, hcm, rfl⟩) | ⟨c, hcm, rfl⟩) | ⟨⟨hxa, hxc⟩, _⟩) |
        ⟨⟨hxb, hxc⟩, _⟩)
      · exact Or.inl hx
      · exact Or.inr (Or.inl ⟨c, hcm, Or.inl rfl⟩)
      · exact Or.inr (Or.inl ⟨c, hcm, Or.inr rfl⟩)
      · exact Or.inr (Or.inr (Or.inl ⟨hxa, hxc⟩))
      · exact Or.inr (Or.inr (Or.inr ⟨hxb, hxc⟩))

/-- C1, witness for the amended theorem at K = ["k"],
A = {k: 0, c: 1, x: 2}, B = {k: 0, c: 3, y: 4} with default suffixes. -/
theorem C1_mergeRows_amended_witness :
    rget (mergeRows ["k"] "_1" "_2"
      ([("k", Val.int 0), ("c", Val.int 1), ("x", Val.int 2)] : Row Val)
      [("k", Val.int 0), ("c", Val.int 3), ("y", Val.int 4)]) "k"
      = some (Val.int 0) ∧
    rget (mergeRows ["k"] "_1" "_2"
      ([("k", Val.int 0), ("c", Val.int 1), ("x", Val.int 2)] : Row Val)
      [("k", Val.int 0), ("c", Val.int 3), ("y", Val.int 4)]) "c_1"
      = some (Val.int 1) ∧
    rget (mergeRows ["k"] "_1" "_2"
      ([("k", Val.int 0), ("c", Val.int 1), ("x", Val.int 2)] : Row Val)
      [("k", Val.int 0), ("c", Val.int 3), ("y", Val.int 4)]) "c_2"
      = some (Val.int 3) ∧
    rget (mergeRows ["k"] "_1" "_2"
      ([("k", Val.int 0), ("c", Val.int 1), ("x", Val.int 2)] : Row Val)
      [("k", Val.int 0), ("c", Val.int 3), ("y", Val.int 4)]) "x"
      = some (Val.int 2) := by
  have h := C1_mergeRows_amended ["k"] "_1" "_2"
    ([("k", Val.int 0), ("c", Val.int 1), ("x", Val.int 2)] : Row Val)
    [("k", Val.int 0), ("c", Val.int 3), ("y", Val.int 4)]
    (by decide) (by decide) (by decide)
    (by decide) (by decide)
  refine ⟨?_, ?_, ?_, ?_⟩
  · rw [h.2.1 "k" (by decide)]; decide
  · rw [show ("c_1" : String) = "c" ++ "_1" from rfl,
      (h.2.2.1 "c" (by decide)).1]; decide
  · rw [show ("c_2" : String) = "c" ++ "_2" from rfl,
      (h.2.2.1 "c" (by decide)).2]; decide
  · rw [h.2.2.2.1 "x" (by decide) (by decide) (by decide)]; decide

/-!
## The four joiners (operations.py 731–789)

Each joiner receives the two key-matched groups.  The Python generators
materialize one side into a list and run two nested `for` loops; we embed the
produced row sequence directly.  `InnerJoiner` yields the product with the
left rows in the outer loop; `OuterJoiner` and `LeftJoiner` fall back to the
bare rows of one side when the other is empty; `RightJoiner` iterates the
*right* rows in the outer loop (`for row_b in rows_b: for row_a in
row_a_list`), still passing the left row as first argument of `_merge_rows`.
-/

/-- `InnerJoiner.__call__`. -/
def innerJoiner {α : Type} [Inhabited α] (keys : List String)
    (sufA sufB : String) (gA gB : List (Row α)) : List (Row α) :=
  gA.flatMap (fun a => gB.map (fun b => mergeRows keys sufA sufB a b))

/-- `OuterJoiner.__call__`: with an empty right list, yield the left rows;
otherwise yield the product, followed by the right rows when the left side
produced no row at all (`is_null`). -/
def outerJoiner {α : Type} [Inhabited α] (keys : List String)
    (sufA sufB : String) (gA gB : List (Row α)) : List (Row α) :=
  if gB.isEmpty then gA
  else
    gA.flatMap (fun a => gB.map (fun b => mergeRows keys sufA sufB a b))
      ++ (if gA.isEmpty then gB else [])

/-- `LeftJoiner.__call__`. -/
def leftJoiner {α : Type} [Inhabited α] (keys : List String)
    (sufA sufB : String) (gA gB : List (Row α)) : List (Row α) :=
  if gB.isEmpty then gA
  else gA.flatMap (fun a => gB.map (fun b => mergeRows keys sufA sufB a b))

/-- `RightJoiner.__call__`: right rows drive the outer loop. -/
def rightJoiner {α : Type} [Inhabited α] (keys : List String)
    (sufA sufB : String) (gA gB : List (Row α)) : List (Row α) :=
  if gA.isEmpty then gB
  else gB.flatMap (fun b => gA.map (fun a => mergeRows keys sufA sufB a b))

/-- The four recognized join strategies. -/
inductive JoinerKind where
  | inner | outer | left | right
deriving DecidableEq

/-- Dispatch on the joiner class. -/
def joinerApply {α : Type} [Inhabited α] (k : JoinerKind) (keys : List String)
    (sufA sufB : String) (gA gB : List (Row α)) : List (Row α) :=
  match k with
  | .inner => innerJoiner keys sufA sufB gA gB
  | .outer => outerJoiner keys sufA sufB gA gB
  | .left => leftJoiner keys sufA sufB gA gB
  | .right => rightJoiner keys sufA sufB gA gB

section JoinerLemmas

variable {α : Type} {β : Type} {γ : Type}

theorem length_flatMap_product (gA : List α) (gB : List β) (f : α → β → γ) :
    (gA.flatMap fun a => gB.map (f a)).length = gA.length * gB.length := by
  induction gA with
  | nil => simp
  | cons a gA ih =>
    simp only [List.flatMap_cons, List.length_append, List.length_map, ih,
      List.length_cons]
    rw [Nat.succ_mul, Nat.add_comm]

theorem flatMap_cons_perm (l : List α) (x : α → β) (g : α → List β) :
    (l.flatMap fun a => x a :: g a).Perm (l.map x ++ l.flatMap g) := by
  induction l with
  | nil => simp
  | cons a l ih =>
    simp only [List.flatMap_cons, List.map_cons, List.cons_append]
    refine List.Perm.cons (x a) ?_
    refine ((ih.append_left (g a)).trans ?_)
    rw [← List.append_assoc, ← List.append_assoc]
    exact List.perm_append_comm.append_right _

theorem product_comm_perm (gA : List α) (gB : List β) (f : α → β → γ) :
    (gB.flatMap fun b => gA.map fun a => f a b).Perm
      (gA.flatMap fun a => gB.map fun b => f a b) := by
  induction gB with
  | nil => simp
  | cons b gB ih =>
    simp only [List.flatMap_cons, List.map_cons]
    refine ((ih.append_left (gA.map (fun a => f a b))).trans ?_)
    exact (flatMap_cons_perm gA (fun a => f a b) fun a => gB.map (f a)).symm

theorem getElem?_flatMap_product (gA : List α) (gB : List β) (f : α → β → γ)
    (i j : Nat) (hi : i < gA.length) (hj : j < gB.length) :
    (gA.flatMap fun a => gB.map (f a))[i * gB.length + j]? =
      some (f gA[i] gB[j]) := by
  induction gA generalizing i with
  | nil => simp at hi
  | cons a gA ih =>
    match i with
    | 0 =>
      simp only [List.flatMap_cons, Nat.zero_mul, Nat.zero_add]
      rw [List.getElem?_append, if_pos (by simpa using hj), List.getElem?_map,
        List.getElem?_eq_getElem hj]
      rfl
    | i + 1 =>
      have hi' : i < gA.length := by simpa [Nat.succ_lt_succ_iff] using hi
      simp only [List.flatMap_cons]
      rw [List.getElem?_append, if_neg (by
        simp only [List.length_map, not_lt, Nat.succ_mul]
        omega)]
      have harith : (i + 1) * gB.length + j - (gB.map (f a)).length =
          i * gB.length + j := by
        simp only [List.length_map, Nat.succ_mul]
        omega
      rw [harith, ih i hi']
      rfl

end JoinerLemmas

/-- C2: on a matched pair of non-empty groups of sizes m and n, each of the
four joiners emits exactly m × n rows — one row-merge for every pair of a
left row (passed as A) and a right row (passed as B). -/
theorem C2_joiner_cartesian {α : Type} [Inhabited α] (k : JoinerKind)
    (keys : List String) (sufA sufB : String) (gA gB : List (Row α))
    (hA : gA ≠ []) (hB : gB ≠ []) :
    (joinerApply k keys sufA sufB gA gB).length = gA.length * gB.length ∧
    (joinerApply k keys sufA sufB gA gB).Perm
      (gA.flatMap fun a => gB.map fun b => mergeRows keys sufA sufB a b) := by
  have hA' : gA.isEmpty = false := by
    rw [Bool.eq_false_iff]
    simpa [List.isEmpty_iff] using hA
  have hB' : gB.isEmpty = false := by
    rw [Bool.eq_false_iff]
    simpa [List.isEmpty_iff] using hB
  cases k with
  | inner =>
    exact ⟨length_flatMap_product .., List.Perm.refl _⟩
  | outer =>
    rw [joinerApply, outerJoiner, hA', hB']
    simp only [Bool.false_eq_true, if_false, List.append_nil]
    exact ⟨length_flatMap_product .., List.Perm.refl _⟩
  | left =>
    rw [joinerApply, leftJoiner, hB']
    simp only [Bool.false_eq_true, if_false]
    exact ⟨length_flatMap_product .., List.Perm.refl _⟩
  | right =>
    rw [joinerApply, rightJoiner, hA']
    simp only [Bool.false_eq_true, if_false]
    refine ⟨?_, product_comm_perm ..⟩
    rw [length_flatMap_product, Nat.mul_comm]

/-- C2, witness: the right joiner on a 2 × 2 matched pair emits 4 rows that
are a permutation of the pairwise merges. -/
theorem C2_joiner_cartesian_witness :
    (joinerApply .right ["k"] "_1" "_2"
      ([[("k", Val.int 0), ("x", Val.int 1)], [("k", Val.int 0), ("x", Val.int 2)]] :
        List (Row Val))
      [[("k", Val.int 0), ("y", Val.int 1)], [("k", Val.int 0), ("y", Val.int 2)]]).length
      = 2 * 2 ∧
    (joinerApply .right ["k"] "_1" "_2"
      ([[("k", Val.int 0), ("x", Val.int 1)], [("k", Val.int 0), ("x", Val.int 2)]] :
        List (Row Val))
      [[("k", Val.int 0), ("y", Val.int 1)], [("k", Val.int 0), ("y", Val.int 2)]]).Perm
      (([[("k", Val.int 0), ("x", Val.int 1)], [("k", Val.int 0), ("x", Val.int 2)]] :
        List (Row Val)).flatMap fun a =>
        ([[("k", Val.int 0), ("y", Val.int 1)], [("k", Val.int 0), ("y", Val.int 2)]] :
          List (Row Val)).map fun b => mergeRows ["k"] "_1" "_2" a b) :=
  C2_joiner_cartesian .right ["k"] "_1" "_2" _ _ (by decide) (by decide)

/-- C3, counterexample.  For the right joiner on a 2 × 2 matched pair, the
second emitted row is the merge of the *second* left row with the *first*
right row — the right rows drive the outer loop — whereas the claim (left
loop outer for all four strategies) demands the merge of the first left row
with the second right row. -/
theorem C3_counterexample :
    (rightJoiner ["k"] "_1" "_2"
      ([[("k", Val.int 0), ("x", Val.int 1)], [("k", Val.int 0), ("x", Val.int 2)]] :
        List (Row Val))
      [[("k", Val.int 0), ("y", Val.int 1)], [("k", Val.int 0), ("y", Val.int 2)]])[1]?
      = some (mergeRows ["k"] "_1" "_2"
        ([("k", Val.int 0), ("x", Val.int 2)] : Row Val)
        [("k", Val.int 0), ("y", Val.int 1)]) ∧
    (rightJoiner ["k"] "_1" "_2"
      ([[("k", Val.int 0), ("x", Val.int 1)], [("k", Val.int 0), ("x", Val.int 2)]] :
        List (Row Val))
      [[("k", Val.int 0), ("y", Val.int 1)], [("k", Val.int 0), ("y", Val.int 2)]])[1]?
      ≠ some (mergeRows ["k"] "_1" "_2"
        ([("k", Val.int 0), ("x", Val.int 1)] : Row Val)
        [("k", Val.int 0), ("y", Val.int 2)]) := by
  exact ⟨by decide, by decide⟩

/-- C3, amended: under the inner, outer and left strategies the merged rows
are emitted with the left group's rows as the outer loop and the right rows
as the inner loop (row number i·n + j is the merge of left row i with right
row j); under the right strategy the roles are swapped: the right rows drive
the outer loop (row number j·m + i is the merge of left row i with right
row j). -/
theorem C3_joiner_order_amended {α : Type} [Inhabited α] (keys : List String)
    (sufA sufB : String) (gA gB : List (Row α)) (i j : Nat)
    (hi : i < gA.length) (hj : j < gB.length) :
    (innerJoiner keys sufA sufB gA gB)[i * gB.length + j]? =
      some (mergeRows keys sufA sufB gA[i] gB[j]) ∧
    (outerJoiner keys sufA sufB gA gB)[i * gB.length + j]? =
      some (mergeRows keys sufA sufB gA[i] gB[j]) ∧
    (leftJoiner keys sufA sufB gA gB)[i * gB.length + j]? =
      some (mergeRows keys sufA sufB gA[i] gB[j]) ∧
    (rightJoiner keys sufA sufB gA gB)[j * gA.length + i]? =
      some (mergeRows keys sufA sufB gA[i] gB[j]) := by
  have hA' : gA.isEmpty = false := by
    rw [Bool.eq_false_iff]
    simpa [List.isEmpty_iff] using
      List.ne_nil_of_length_pos (Nat.lt_of_le_of_lt (Nat.zero_le i) hi)
  have hB' : gB.isEmpty = false := by
    rw [Bool.eq_false_iff]
    simpa [List.isEmpty_iff] using
      List.ne_nil_of_length_pos (Nat.lt_of_le_of_lt (Nat.zero_le j) hj)
  refine ⟨?_, ?_, ?_, ?_⟩
  · exact getElem?_flatMap_product gA gB _ i j hi hj
  · rw [outerJoiner, hA', hB']
    simp only [Bool.false_eq_true, if_false, List.append_nil]
    exact getElem?_flatMap_product gA gB _ i j hi hj
  · rw [leftJoiner, hB']
    simp only [Bool.false_eq_true, if_false]
    exact getElem?_flatMap_product gA gB _ i j hi hj
  · rw [rightJoiner, hA']
    simp only [Bool.false_eq_true, if_false]
    exact getElem?_flatMap_product gB gA (fun b a => mergeRows keys sufA sufB a b)
      j i hj hi

/-- C3, witness for the amended theorem on a concrete 2 × 2 matched pair. -/
theorem C3_joiner_order_amended_witness :
    (rightJoiner ["k"] "_1" "_2"
      ([[("k", Val.int 0), ("x", Val.int 1)], [("k", Val.int 0), ("x", Val.int 2)]] :
        List (Row Val))
      [[("k", Val.int 0), ("y", Val.int 1)], [("k", Val.int 0), ("y", Val.int 2)]])[0 * 2 + 1]?
      = some (mergeRows ["k"] "_1" "_2"
        ([("k", Val.int 0), ("x", Val.int 2)] : Row Val)
        [("k", Val.int 0), ("y", Val.int 1)]) :=
  (C3_joiner_order_amended ["k"] "_1" "_2" _ _ 1 0 (by decide) (by decide)).2.2.2

/-!
## Reducers (operations.py 622–725)

A reducer receives the group-key tuple and the group's rows.  In the engine
(`Reduce.__call__`) the rows argument is a one-shot `itertools.groupby`
iterator; the embeddings below reproduce the iterator semantics:

* `Count.__call__` — `for row in rows` binds the first row, then
  `1 + sum(1 for _ in rows)` exhausts the *remaining* iterator, so the loop
  body runs exactly once and the count is `1 + len(rest)`, the group size.
* `Sum.__call__` — `row[column] + sum(row[column] for row in rows)`: the
  generator expression shadows `row` and consumes the remaining iterator, so
  the result is first-row value plus the sum over the rest (then `break`).
-/

/-- `{key: row[key] for key in group_key}`. -/
def keyDict {α : Type} [Inhabited α] (gk : List String) (r : Row α) : Row α :=
  insertList [] (gk.map (fun k => (k, getD r k)))

/-- `Count.__call__` on a group iterator. -/
def countCall (gk : List String) (col : String) (rows : List (Row Val)) :
    List (Row Val) :=
  match rows with
  | [] => []
  | r :: rest => [rset (keyDict gk r) col (Val.int (1 + rest.length))]

/-- `Sum.__call__` on a group iterator (`sum` folds from 0 on the left). -/
def sumCall {α : Type} [Inhabited α] [Add α] [Zero α] (gk : List String)
    (col : String) (rows : List (Row α)) : List (Row α) :=
  match rows with
  | [] => []
  | r :: rest =>
    [rset (keyDict gk r) col
      (getD r col + (rest.map (fun row => getD row col)).foldl (· + ·) 0)]

section KeyDictLemmas

variable {α : Type} [Inhabited α]

theorem rget_keyDict_mem {gk : List String} (r : Row α) {k : String}
    (hnd : gk.Nodup) (hk : k ∈ gk) :
    rget (keyDict gk r) k = some (getD r k) := by
  apply rget_insertList_split
  obtain ⟨l₁, l₂, hsplit, hnot⟩ := exists_split_of_nodup_mem hnd hk
  refine ⟨l₁.map (fun k => (k, getD r k)), l₂.map (fun k => (k, getD r k)),
    ?_, ?_⟩
  · rw [hsplit]
    simp [List.map_append]
  · rw [map_fst_tag]
    exact hnot

theorem rget_keyDict_not_mem {gk : List String} (r : Row α) {k : String}
    (hk : k ∉ gk) : rget (keyDict gk r) k = none := by
  rw [keyDict, rget_insertList_of_not_mem]
  · rfl
  · rw [map_fst_tag]
    exact hk

theorem rkeys_keyDict_toFinset (gk : List String) (r : Row α) :
    (rkeys (keyDict gk r)).toFinset = gk.toFinset := by
  rw [keyDict, rkeys_insertList_toFinset, map_fst_tag]
  simp [rkeys]

end KeyDictLemmas

/-- C4: on every non-empty group (all rows carrying the group-key columns
with the group's key values), `Count(column)` yields exactly one row: the
group-key columns with the group's key values plus `column` holding the
group size. -/
theorem C4_count (gk : List String) (col : String) (r : Row Val)
    (rest : List (Row Val)) (hnd : gk.Nodup) (hcol : col ∉ gk)
    (hkeys : ∀ k ∈ gk, rhas r k = true)
    (hgroup : ∀ row ∈ rest, ∀ k ∈ gk, rget row k = rget r k) :
    (countCall gk col (r :: rest)).length = 1 ∧
    ∀ ρ ∈ countCall gk col (r :: rest),
      rget ρ col = some (Val.int ((r :: rest).length)) ∧
      (∀ k ∈ gk, rget ρ k = rget r k) ∧
      (rkeys ρ).toFinset = insert col gk.toFinset := by
  refine ⟨rfl, ?_⟩
  intro ρ hρ
  have hρ' : ρ = rset (keyDict gk r) col (Val.int (1 + rest.length)) := by
    simpa [countCall] using hρ
  subst hρ'
  refine ⟨?_, ?_, ?_⟩
  · rw [rget_rset_self]
    have harith : (1 + (rest.length : Int)) = (((r :: rest).length : Nat) : Int) := by
      simp only [List.length_cons]
      omega
    rw [harith]
  · intro k hk
    have hne : k ≠ col := fun h => hcol (h ▸ hk)
    rw [rget_rset_ne _ _ hne, rget_keyDict_mem r hnd hk]
    exact (rget_eq_some_getD (hkeys k hk)).symm
  · rw [rkeys_rset_toFinset, rkeys_keyDict_toFinset]

/-- C4, witness on the two-row group {a: 1, b: 5}, {a: 1, b: 6} with
group key ("a",) and count column "d". -/
theorem C4_count_witness :
    (countCall ["a"] "d"
      ([[("a", Val.int 1), ("b", Val.int 5)], [("a", Val.int 1), ("b", Val.int 6)]] :
        List (Row Val))).length = 1 ∧
    ∀ ρ ∈ countCall ["a"] "d"
      ([[("a", Val.int 1), ("b", Val.int 5)], [("a", Val.int 1), ("b", Val.int 6)]] :
        List (Row Val)),
      rget ρ "d" = some (Val.int 2) ∧
      (∀ k ∈ ["a"], rget ρ k = rget ([("a", Val.int 1), ("b", Val.int 5)] : Row Val) k) ∧
      (rkeys ρ).toFinset = insert "d" (["a"] : List String).toFinset :=
  C4_count ["a"] "d" [("a", Val.int 1), ("b", Val.int 5)]
    [[("a", Val.int 1), ("b", Val.int 6)]]
    (by decide) (by decide) (by decide) (by decide)

/-- C5: on every non-empty group whose rows all carry `column`,
`Sum(column)` yields exactly one row: the group-key columns with the group's
key values plus `column` holding the sum of `column` over the whole group —
the first row's value included exactly once. -/
theorem C5_sum {α : Type} [Inhabited α] [AddCommMonoid α] (gk : List String)
    (col : String) (r : Row α) (rest : List (Row α))
    (hnd : gk.Nodup) (hcol : col ∉ gk)
    (hkeys : ∀ k ∈ gk, rhas r k = true)
    (hcols : ∀ row ∈ r :: rest, rhas row col = true)
    (hgroup : ∀ row ∈ rest, ∀ k ∈ gk, rget row k = rget r k) :
    (sumCall gk col (r :: rest)).length = 1 ∧
    ∀ ρ ∈ sumCall gk col (r :: rest),
      rget ρ col = some (((r :: rest).map (fun row => getD row col)).sum) ∧
      (∀ k ∈ gk, rget ρ k = rget r k) ∧
      (rkeys ρ).toFinset = insert col gk.toFinset := by
  refine ⟨rfl, ?_⟩
  intro ρ hρ
  have hρ' : ρ = rset (keyDict gk r) col
      (getD r col + (rest.map (fun row => getD row col)).foldl (· + ·) 0) := by
    simpa [sumCall] using hρ
  subst hρ'
  refine ⟨?_, ?_, ?_⟩
  · rw [rget_rset_self]
    congr 1
    rw [List.map_cons, List.sum_cons, ← List.sum_eq_foldl]
  · intro k hk
    have hne : k ≠ col := fun h => hcol (h ▸ hk)
    rw [rget_rset_ne _ _ hne, rget_keyDict_mem r hnd hk]
    exact (rget_eq_some_getD (hkeys k hk)).symm
  · rw [rkeys_rset_toFinset, rkeys_keyDict_toFinset]

/-- C5, witness on the group {a: 1, b: 2}, {a: 1, b: 3} with key ("a",),
summing column "b" over the rationals. -/
theorem C5_sum_witness :
    (sumCall ["a"] "b"
      ([[("a", (1 : ℚ)), ("b", 2)], [("a", 1), ("b", 3)]] : List (Row ℚ))).length
      = 1 ∧
    ∀ ρ ∈ sumCall ["a"] "b"
      ([[("a", (1 : ℚ)), ("b", 2)], [("a", 1), ("b", 3)]] : List (Row ℚ)),
      rget ρ "b" = some ((([[("a", (1 : ℚ)), ("b", 2)], [("a", 1), ("b", 3)]] :
        List (Row ℚ)).map (fun row => getD row "b")).sum) ∧
      (∀ k ∈ ["a"], rget ρ k = rget ([("a", (1 : ℚ)), ("b", 2)] : Row ℚ) k) ∧
      (rkeys ρ).toFinset = insert "b" (["a"] : List String).toFinset :=
  C5_sum ["a"] "b" [("a", (1 : ℚ)), ("b", 2)] [[("a", 1), ("b", 3)]]
    (by decide) (by decide) (by decide) (by decide) (by decide)

/-!
## TermFrequency (operations.py 640–672)

`TermFrequency.__call__` binds the first row of the group iterator, then
`Counter(row[self.words_column] for row in rows)` consumes the *remaining*
iterator (the generator expression shadows `row`), so `counts` tallies the
words of the rest of the group and `total_words = 1 + sum(counts.values())`
is the full group size.  The `counts.items()` loop emits one row per distinct
word of the rest, in first-occurrence order (`Counter` preserves insertion
order — `firstDedup` below); when the word equals the first row's word the
code adds `1/total_words` (its two successive assignments to the result
column are collapsed into one `rset` with the final value).  If the first
row's word never occurs in the rest (`word_seen` stays false), one extra row
with frequency `1/total_words` is appended.  The loop `break`s after the
first row.  Python's float division is modelled exactly over ℚ.
-/

/-- One step of first-occurrence deduplication. -/
def fdStep {β : Type} [DecidableEq β] (acc : List β) (a : β) : List β :=
  if a ∈ acc then acc else acc ++ [a]

/-- Distinct values of a list, in first-occurrence order (the iteration
order of `collections.Counter`). -/
def firstDedup {β : Type} [DecidableEq β] (l : List β) : List β :=
  l.foldl fdStep []

/-- `TermFrequency.__call__` on a group iterator. -/
def tfCall (gk : List String) (wc rc : String) (rows : List (Row Val)) :
    List (Row Val) :=
  match rows with
  | [] => []
  | r :: rest =>
    let ws := rest.map (fun row => getD row wc)
    let total : ℚ := 1 + ws.length
    let w1 := getD r wc
    let main := (firstDedup ws).map (fun w =>
      rset (rset (keyDict gk r) wc w) rc
        (Val.rat ((ws.count w : ℚ) / total + if w = w1 then 1 / total else 0)))
    if w1 ∈ ws then main
    else main ++ [rset (rset (keyDict gk r) wc w1) rc (Val.rat (1 / total))]

section FirstDedupLemmas

variable {β : Type} [DecidableEq β]

theorem mem_fdStep {acc : List β} {a x : β} :
    x ∈ fdStep acc a ↔ x ∈ acc ∨ x = a := by
  by_cases h : a ∈ acc
  · simp only [fdStep, if_pos h]
    constructor
    · exact Or.inl
    · rintro (hx | rfl)
      · exact hx
      · exact h
  · simp [fdStep, if_neg h]

theorem mem_foldl_fdStep (l : List β) :
    ∀ (acc : List β) (x : β), x ∈ l.foldl fdStep acc ↔ x ∈ acc ∨ x ∈ l := by
  induction l with
  | nil => simp
  | cons a l ih =>
    intro acc x
    rw [List.foldl_cons, ih, mem_fdStep, List.mem_cons]
    constructor
    · rintro ((hx | rfl) | hx)
      · exact Or.inl hx
      · exact Or.inr (Or.inl rfl)
      · exact Or.inr (Or.inr hx)
    · rintro (hx | (rfl | hx))
      · exact Or.inl (Or.inl hx)
      · exact Or.inl (Or.inr rfl)
      · exact Or.inr hx

theorem mem_firstDedup {l : List β} {x : β} : x ∈ firstDedup l ↔ x ∈ l := by
  rw [firstDedup, mem_foldl_fdStep]
  simp

theorem nodup_foldl_fdStep (l : List β) :
    ∀ acc : List β, acc.Nodup → (l.foldl fdStep acc).Nodup := by
  induction l with
  | nil => exact fun acc h => h
  | cons a l ih =>
    intro acc hacc
    rw [List.foldl_cons]
    apply ih
    by_cases h : a ∈ acc
    · simpa [fdStep, if_pos h] using hacc
    · rw [fdStep, if_neg h, List.nodup_append]
      refine ⟨hacc, List.nodup_singleton a, ?_⟩
      intro x hx hxa
      rw [List.mem_singleton] at hxa
      exact h (hxa ▸ hx)

theorem nodup_firstDedup (l : List β) : (firstDedup l).Nodup :=
  nodup_foldl_fdStep l [] List.nodup_nil

end FirstDedupLemmas

theorem map_map_eq_self {β γ : Type} (f : β → γ) (g : γ → β)
    (h : ∀ x, g (f x) = x) (l : List β) : (l.map f).map g = l := by
  induction l with
  | nil => rfl
  | cons a l ih => simp [h, ih]

theorem tf_row_rget (gk : List String) (wc rc : String) (r : Row Val)
    (hnd : gk.Nodup) (hwc : wc ∉ gk) (hrc : rc ∉ gk) (hne : rc ≠ wc)
    (w v : Val) :
    rget (rset (rset (keyDict gk r) wc w) rc v) rc = some v ∧
    rget (rset (rset (keyDict gk r) wc w) rc v) wc = some w ∧
    (∀ k ∈ gk, rget (rset (rset (keyDict gk r) wc w) rc v) k =
      some (getD r k)) ∧
    (rkeys (rset (rset (keyDict gk r) wc w) rc v)).toFinset =
      insert rc (insert wc gk.toFinset) := by
  refine ⟨rget_rset_self .., ?_, ?_, ?_⟩
  · rw [rget_rset_ne _ _ (Ne.symm hne), rget_rset_self]
  · intro k hk
    have hkrc : k ≠ rc := fun h => hrc (h ▸ hk)
    have hkwc : k ≠ wc := fun h => hwc (h ▸ hk)
    rw [rget_rset_ne _ _ hkrc, rget_rset_ne _ _ hkwc,
      rget_keyDict_mem r hnd hk]
  · rw [rkeys_rset_toFinset, rkeys_rset_toFinset, rkeys_keyDict_toFinset]

/-- C6: on every non-empty group of n rows each carrying `wordsCol`,
`TermFrequency(wordsCol, resultCol)` yields exactly one row per distinct
value w of `wordsCol` in the group — the emitted word values are distinct
and range over exactly the group's word values — and each emitted row holds
the group-key columns (with the first row's values), `wordsCol` = w, and
`resultCol` = (occurrences of w in the group) / n. -/
theorem C6_termFrequency (gk : List String) (wc rc : String) (r : Row Val)
    (rest : List (Row Val)) (hnd : gk.Nodup) (hwc : wc ∉ gk) (hrc : rc ∉ gk)
    (hne : rc ≠ wc) (hkeys : ∀ k ∈ gk, rhas r k = true)
    (hw : ∀ row ∈ r :: rest, rhas row wc = true) :
    ((tfCall gk wc rc (r :: rest)).map (fun ρ => getD ρ wc)).Nodup ∧
    ((tfCall gk wc rc (r :: rest)).map (fun ρ => getD ρ wc)).toFinset =
      ((r :: rest).map (fun row => getD row wc)).toFinset ∧
    ∀ ρ ∈ tfCall gk wc rc (r :: rest),
      rget ρ wc = some (getD ρ wc) ∧
      rget ρ rc = some (Val.rat
        ((((r :: rest).map (fun row => getD row wc)).count (getD ρ wc) : ℚ) /
          ((r :: rest).length : ℚ))) ∧
      (∀ k ∈ gk, rget ρ k = rget r k) ∧
      (rkeys ρ).toFinset = insert rc (insert wc gk.toFinset) := by
  have hlen : ((1 : ℚ) + ((rest.map (fun row => getD row wc)).length : ℚ)) =
      (((r :: rest).length : Nat) : ℚ) := by
    simp only [List.length_map, List.length_cons]
    push_cast
    ring
  have hwordv : ∀ (w v : Val),
      getD (rset (rset (keyDict gk r) wc w) rc v) wc = w := by
    intro w v
    simp only [getD]
    rw [(tf_row_rget gk wc rc r hnd hwc hrc hne w v).2.1]
    rfl
  have hout : tfCall gk wc rc (r :: rest) =
      if (getD r wc) ∈ (rest.map (fun row => getD row wc)) then
        ((firstDedup (rest.map (fun row => getD row wc))).map (fun w =>
          rset (rset (keyDict gk r) wc w) rc
            (Val.rat (((rest.map (fun row => getD row wc)).count w : ℚ) /
                (1 + ((rest.map (fun row => getD row wc)).length : ℚ)) +
              if w = getD r wc then
                1 / (1 + ((rest.map (fun row => getD row wc)).length : ℚ))
              else 0))))
      else
        ((firstDedup (rest.map (fun row => getD row wc))).map (fun w =>
          rset (rset (keyDict gk r) wc w) rc
            (Val.rat (((rest.map (fun row => getD row wc)).count w : ℚ) /
                (1 + ((rest.map (fun row => getD row wc)).length : ℚ)) +
              if w = getD r wc then
                1 / (1 + ((rest.map (fun row => getD row wc)).length : ℚ))
              else 0))))
          ++ [rset (rset (keyDict gk r) wc (getD r wc)) rc
            (Val.rat (1 / (1 + ((rest.map (fun row => getD row wc)).length : ℚ))))]
      := rfl
  have hmap : ((firstDedup (rest.map (fun row => getD row wc))).map (fun w =>
      rset (rset (keyDict gk r) wc w) rc
        (Val.rat (((rest.map (fun row => getD row wc)).count w : ℚ) /
            (1 + ((rest.map (fun row => getD row wc)).length : ℚ)) +
          if w = getD r wc then
            1 / (1 + ((rest.map (fun row => getD row wc)).length : ℚ))
          else 0)))).map (fun ρ => getD ρ wc) =
      firstDedup (rest.map (fun row => getD row wc)) :=
    map_map_eq_self _ _ (fun w => hwordv w _) _
  by_cases h1 : (getD r wc) ∈ (rest.map (fun row => getD row wc))
  · rw [hout, if_pos h1]
    refine ⟨?_, ?_, ?_⟩
    · rw [hmap]
      exact nodup_firstDedup _
    · rw [hmap]
      ext x
      simp only [List.mem_toFinset, mem_firstDedup, List.map_cons,
        List.mem_cons]
      constructor
      · exact fun hx => Or.inr hx
      · rintro (rfl | hx)
        · exact h1
        · exact hx
    · intro ρ hρ
      obtain ⟨w, hwmem, rfl⟩ := List.mem_map.mp hρ
      obtain ⟨hgrc, hgwc, hgk, hgkeys⟩ := tf_row_rget gk wc rc r hnd hwc hrc hne w
        (Val.rat (((rest.map (fun row => getD row wc)).count w : ℚ) /
            (1 + ((rest.map (fun row => getD row wc)).length : ℚ)) +
          if w = getD r wc then
            1 / (1 + ((rest.map (fun row => getD row wc)).length : ℚ))
          else 0))
      rw [hwordv w _]
      refine ⟨hgwc, ?_, ?_, hgkeys⟩
      · rw [hgrc]
        congr 2
        rw [List.map_cons, List.count_cons, ← hlen]
        by_cases hw1 : w = getD r wc
        · rw [if_pos hw1, if_pos (by exact beq_iff_eq.mpr hw1.symm),
            div_add_div_same]
          push_cast
          ring
        · rw [if_neg hw1, if_neg (by
            simp only [beq_iff_eq]
            exact fun h => hw1 h.symm), add_zero, add_zero]
      · intro k hk
        rw [hgk k hk]
        exact (rget_eq_some_getD (hkeys k hk)).symm
  · rw [hout, if_neg h1]
    refine ⟨?_, ?_, ?_⟩
    · rw [List.map_append, hmap]
      rw [List.nodup_append]
      refine ⟨nodup_firstDedup _, ?_, ?_⟩
      · simp only [List.map_cons, List.map_nil]
        rw [hwordv _ _]
        exact List.nodup_singleton _
      · intro x hx
        rw [mem_firstDedup] at hx
        simp only [List.map_cons, List.map_nil, List.mem_singleton]
        rw [hwordv _ _]
        exact fun h => h1 (h ▸ hx)
    · rw [List.map_append, hmap]
      simp only [List.map_cons, List.map_nil]
      rw [hwordv _ _]
      ext x
      simp only [List.toFinset_append, Finset.mem_union, List.mem_toFinset,
        mem_firstDedup, List.mem_singleton, List.map_cons, List.mem_cons,
        List.not_mem_nil, or_false]
      constructor
      · rintro (hx | rfl)
        · exact Or.inr hx
        · exact Or.inl rfl
      · rintro (rfl | hx)
        · exact Or.inr rfl
        · exact Or.inl hx
    · intro ρ hρ
      rcases List.mem_append.mp hρ with hρ | hρ
      · obtain ⟨w, hwmem, rfl⟩ := List.mem_map.mp hρ
        obtain ⟨hgrc, hgwc, hgk, hgkeys⟩ := tf_row_rget gk wc rc r hnd hwc hrc
          hne w
          (Val.rat (((rest.map (fun row => getD row wc)).count w : ℚ) /
              (1 + ((rest.map (fun row => getD row wc)).length : ℚ)) +
            if w = getD r wc then
              1 / (1 + ((rest.map (fun row => getD row wc)).length : ℚ))
            else 0))
        rw [hwordv w _]
        have hw1 : w ≠ getD r wc := by
          rw [mem_firstDedup] at hwmem
          exact fun h => h1 (h ▸ hwmem)
        refine ⟨hgwc, ?_, ?_, hgkeys⟩
        · rw [hgrc]
          congr 2
          rw [List.map_cons, List.count_cons, ← hlen]
          rw [if_neg hw1, if_neg (by
            simp only [beq_iff_eq]
            exact fun h => hw1 h.symm), add_zero, add_zero]
        · intro k hk
          rw [hgk k hk]
          exact (rget_eq_some_getD (hkeys k hk)).symm
      · rw [List.mem_singleton] at hρ
        subst hρ
        obtain ⟨hgrc, hgwc, hgk, hgkeys⟩ := tf_row_rget gk wc rc r hnd hwc hrc
          hne (getD r wc)
          (Val.rat (1 / (1 + ((rest.map (fun row => getD row wc)).length : ℚ))))
        rw [hwordv _ _]
        refine ⟨hgwc, ?_, ?_, hgkeys⟩
        · rw [hgrc]
          congr 2
          rw [List.map_cons, List.count_cons, ← hlen]
          rw [List.count_eq_zero.mpr h1, if_pos (beq_iff_eq.mpr rfl)]
          push_cast
          ring
        · intro k hk
          rw [hgk k hk]
          exact (rget_eq_some_getD (hkeys k hk)).symm

/-- C6, witness on the group key ("d",), words column "w", result column
"tf", group {d:1, w:"a"}, {d:1, w:"b"}, {d:1, w:"a"}. -/
theorem C6_termFrequency_witness :
    ((tfCall ["d"] "w" "tf"
      ([[("d", Val.int 1), ("w", Val.str "a")],
        [("d", Val.int 1), ("w", Val.str "b")],
        [("d", Val.int 1), ("w", Val.str "a")]] : List (Row Val))).map
      (fun ρ => getD ρ "w")).Nodup ∧
    ((tfCall ["d"] "w" "tf"
      ([[("d", Val.int 1), ("w", Val.str "a")],
        [("d", Val.int 1), ("w", Val.str "b")],
        [("d", Val.int 1), ("w", Val.str "a")]] : List (Row Val))).map
      (fun ρ => getD ρ "w")).toFinset =
      (([[("d", Val.int 1), ("w", Val.str "a")],
        [("d", Val.int 1), ("w", Val.str "b")],
        [("d", Val.int 1), ("w", Val.str "a")]] : List (Row Val)).map
        (fun row => getD row "w")).toFinset :=
  ⟨(C6_termFrequency ["d"] "w" "tf" [("d", Val.int 1), ("w", Val.str "a")]
      [[("d", Val.int 1), ("w", Val.str "b")],
        [("d", Val.int 1), ("w", Val.str "a")]]
      (by decide) (by decide) (by decide) (by decide) (by decide)
      (by decide)).1,
    (C6_termFrequency ["d"] "w" "tf" [("d", Val.int 1), ("w", Val.str "a")]
      [[("d", Val.int 1), ("w", Val.str "b")],
        [("d", Val.int 1), ("w", Val.str "a")]]
      (by decide) (by decide) (by decide) (by decide) (by decide)
      (by decide)).2.1⟩

/-!
## Split mapper (operations.py 350–366)

`Split.__call__` runs `re.finditer(separator, value)` (default separator
`\s+`, i.e. maximal runs of whitespace, scanned left to right and
non-overlapping) and, for **every** match, yields a copy of the row with the
column replaced by the slice between the previous match's end and this
match's start — even when that slice is empty.  After the loop the final
slice is yielded only when non-empty.  `splitWs` produces exactly the
successive slices for the `\s+` scan (final slice included);
`splitLit` does the same for a non-empty literal separator (an empty literal
is degenerate in `re` and excluded by hypothesis).  Only ASCII whitespace is
modelled.  `emitTokens` keeps every slice but a trailing empty one.
-/

/-- ASCII `\s`. -/
def isWs (c : Char) : Bool :=
  c == ' ' || c == '\t' || c == '\n' || c == '\r' || c == '\x0b' || c == '\x0c'

/-- Successive slices of the `\s+` scan: `acc` holds the current slice
reversed, `inSep` tells whether the previous character extended a whitespace
run (a new whitespace character then belongs to the same separator match). -/
def splitWsGo : List Char → Bool → List Char → List (List Char)
  | acc, _, [] => [acc.reverse]
  | acc, inSep, c :: cs =>
    if isWs c then
      if inSep then splitWsGo [] true cs
      else acc.reverse :: splitWsGo [] true cs
    else splitWsGo (c :: acc) false cs

/-- All slices (final slice included) for the default separator `\s+`. -/
def splitWs (v : List Char) : List (List Char) :=
  splitWsGo [] false v

/-- All slices for a literal separator: at each position, if the separator
matches there the current slice ends and scanning resumes after the match
(non-overlapping, leftmost-first — exactly `re.finditer` on a literal). -/
def splitLitGo (s : List Char) : List Char → List Char → List (List Char)
  | acc, [] => [acc.reverse]
  | acc, c :: cs =>
    if !s.isEmpty && s.isPrefixOf (c :: cs) then
      acc.reverse :: splitLitGo s [] ((c :: cs).drop s.length)
    else splitLitGo s (c :: acc) cs
termination_by acc rest => rest.length
decreasing_by
  · rename_i hcond
    simp only [Bool.and_eq_true, Bool.not_eq_true'] at hcond
    have hs : s.length ≠ 0 := by
      intro hz
      rw [List.eq_nil_of_length_eq_zero hz] at hcond
      simp at hcond
    simp only [List.length_drop, List.length_cons]
    omega
  · simp only [List.length_cons]
    omega

/-- All slices for an explicit separator (empty literal excluded by the
theorems' hypotheses). -/
def splitLit (s v : List Char) : List (List Char) :=
  if s.isEmpty then [v] else splitLitGo s [] v

/-- Slice list for the configured separator. -/
def splitTokens (sep : Option (List Char)) (v : List Char) :
    List (List Char) :=
  match sep with
  | none => splitWs v
  | some s => splitLit s v

/-- Every slice is yielded except a trailing empty one (the loop yields all
pre-match slices; the final slice only when `start < len(value)`). -/
def emitTokens (toks : List (List Char)) : List (List Char) :=
  match toks.getLast? with
  | some t => if t.isEmpty then toks.dropLast else toks
  | none => []

/-- `Split.__call__`: nothing when the column is absent; otherwise one row
per emitted slice, the column replaced by the slice. -/
def splitCall (sep : Option String) (col : String) (row : Row Val) :
    List (Row Val) :=
  if rhas row col then
    (emitTokens (splitTokens (sep.map (fun s => s.data))
      (match rget row col with
       | some (Val.str s) => s.data
       | _ => []))).map (fun t => rset row col (Val.str (String.mk t)))
  else []

theorem rhas_of_rget_eq_some {α : Type} {r : Row α} {c : String} {v : α}
    (h : rget r c = some v) : rhas r c = true := by
  induction r with
  | nil => simp [rget] at h
  | cons p r ih =>
    by_cases hp : p.1 = c
    · simp [rhas, hp]
    · rw [rget] at h
      rw [if_neg hp] at h
      simp [rhas, hp, ih h]

theorem map_rget_col (row : Row Val) (col : String) (f : List Char → Val)
    (l : List (List Char)) :
    ((l.map (fun t => rset row col (f t))).map (fun ρ => rget ρ col)) =
      l.map (fun t => some (f t)) := by
  induction l with
  | nil => rfl
  | cons t l ih => simp [rget_rset_self, ih]

/-- C7, counterexample.  With the default separator on the value " a", the
leading whitespace run is a match whose preceding slice is the empty string,
and the code yields a row for it: the output is {text: ""}, {text: "a"} —
two rows, not the single row the claim's "yields no row for an empty token"
predicts. -/
theorem C7_counterexample :
    splitCall none "text" [("text", Val.str " a")] =
      [[("text", Val.str "")], [("text", Val.str "a")]] ∧
    (splitCall none "text" [("text", Val.str " a")]).length ≠ 1 := by
  exact ⟨by decide, by decide⟩

/-- C7, amended: for every input row that contains the split column with a
string value, the Split mapper yields one row per slice of the split value
between consecutive separator matches, in order — empty slices included,
except that an empty trailing slice is suppressed — each output row having
the split column replaced by the slice and all other columns unchanged; with
no separator given, the separator is one-or-more whitespace. -/
theorem C7_split_amended (sep : Option String) (col : String) (row : Row Val)
    (v : String) (hv : rget row col = some (Val.str v))
    (hsep : ∀ s, sep = some s → s ≠ "") :
    ((splitCall sep col row).map (fun ρ => rget ρ col) =
      (emitTokens (splitTokens (sep.map (fun s => s.data)) v.data)).map
        (fun t => some (Val.str (String.mk t)))) ∧
    ((splitCall sep col row).length =
      (emitTokens (splitTokens (sep.map (fun s => s.data)) v.data)).length) ∧
    (∀ ρ ∈ splitCall sep col row, ∀ c, c ≠ col → rget ρ c = rget row c) := by
  have hout : splitCall sep col row =
      (emitTokens (splitTokens (sep.map (fun s => s.data)) v.data)).map
        (fun t => rset row col (Val.str (String.mk t))) := by
    rw [splitCall, if_pos (rhas_of_rget_eq_some hv), hv]
  refine ⟨?_, ?_, ?_⟩
  · rw [hout, map_rget_col]
  · rw [hout, List.length_map]
  · intro ρ hρ c hc
    rw [hout] at hρ
    obtain ⟨t, _, rfl⟩ := List.mem_map.mp hρ
    exact rget_rset_ne _ _ hc

/-- C7, witness for the amended theorem: default separator on
{text: "a b", id: 7} — two rows {text: "a"}, {text: "b"}, id untouched. -/
theorem C7_split_amended_witness :
    ((splitCall none "text" [("text", Val.str "a b"), ("id", Val.int 7)]).map
      (fun ρ => rget ρ "text") =
      (emitTokens (splitTokens none ("a b" : String).data)).map
        (fun t => some (Val.str (String.mk t)))) ∧
    ((splitCall none "text" [("text", Val.str "a b"), ("id", Val.int 7)]).length
      = (emitTokens (splitTokens none ("a b" : String).data)).length) ∧
    (∀ ρ ∈ splitCall none "text" [("text", Val.str "a b"), ("id", Val.int 7)],
      ∀ c, c ≠ "text" →
        rget ρ c = rget ([("text", Val.str "a b"), ("id", Val.int 7)] : Row Val) c) :=
  C7_split_amended none "text" [("text", Val.str "a b"), ("id", Val.int 7)]
    "a b" (by decide) (fun s h => nomatch h)

/-!
## The sort-merge walk's key order (`Join._is_less`, operations.py 141–149)

The static method walks the two equal-length key tuples in parallel and
compares `str(a_val) < str(b_val)` / `str(a_val) > str(b_val)` per
component, returning `False` when the zipped tuples are exhausted.  `pyStr`
renders a value the way CPython's `str` does for ints (decimal, `-` sign)
and strings (identity); float rendering is not modelled (`rat` values arise
from divisions and never serve as join keys in the claims considered).
-/

/-- CPython `str` of a row value (ints and strings faithful). -/
def pyStr : Val → String
  | .int i => toString i
  | .str s => s
  | .rat q => toString q

/-- Executable code-point lexicographic comparison of character lists —
CPython's `str.__lt__`. -/
def charListLt : List Char → List Char → Bool
  | _, [] => false
  | [], _ :: _ => true
  | c :: cs, d :: ds =>
    if c < d then true else if d < c then false else charListLt cs ds

/-- CPython `str < str`. -/
def strLt (s t : String) : Bool := charListLt s.data t.data

theorem charListLt_iff_lex (l m : List Char) :
    charListLt l m = true ↔ List.Lex (· < ·) l m := by
  induction l generalizing m with
  | nil =>
    cases m with
    | nil =>
      constructor
      · intro hfalse
        simp [charListLt] at hfalse
      · intro hlex
        cases hlex
    | cons d ds =>
      constructor
      · intro _
        exact List.Lex.nil
      · intro _
        simp [charListLt]
  | cons c cs ih =>
    cases m with
    | nil =>
      constructor
      · intro hfalse
        simp [charListLt] at hfalse
      · intro hlex
        cases hlex
    | cons d ds =>
      rcases lt_trichotomy c d with hlt | heq | hgt
      · constructor
        · intro _
          exact List.Lex.rel hlt
        · intro _
          simp [charListLt, hlt]
      · subst heq
        rw [show charListLt (c :: cs) (c :: ds) = charListLt cs ds from by
          simp [charListLt, lt_irrefl]]
        constructor
        · intro hh
          exact List.Lex.cons ((ih ds).mp hh)
        · intro hlex
          cases hlex with
          | rel hr => exact absurd hr (lt_irrefl _)
          | cons hl => exact (ih ds).mpr hl
      · rw [show charListLt (c :: cs) (d :: ds) = false from by
          simp only [charListLt]
          rw [if_neg (lt_asymm hgt), if_pos hgt]]
        constructor
        · intro hh
          exact absurd hh (by simp)
        · intro hlex
          cases hlex with
          | rel hr => exact absurd hr (lt_asymm hgt)
          | cons hl => exact absurd rfl (ne_of_gt hgt)

theorem strLt_iff (s t : String) : strLt s t = true ↔ s < t := by
  rw [String.lt_iff_toList_lt]
  exact charListLt_iff_lex s.data t.data

/-- `Join._is_less`: per-component `str(a_val) < str(b_val)` /
`str(a_val) > str(b_val)` over the zipped tuples, `False` once the zip is
exhausted. -/
def isLess : List Val → List Val → Bool
  | a :: as, b :: bs =>
    if strLt (pyStr a) (pyStr b) then true
    else if strLt (pyStr b) (pyStr a) then false
    else isLess as bs
  | _, _ => false

/-- C10: on equal-length key tuples, `Join._is_less` holds exactly when the
tuple of string renderings of the left components is lexicographically less
than that of the right ones; in particular it orders the integer key 10
before the integer key 2 ("10" < "2"), disagreeing with the numeric order
2 < 10 — so numerically sorted integer-keyed inputs can be walked out of
merge order. -/
theorem C10_isLess_string_lex (a b : List Val) (h : a.length = b.length) :
    (isLess a b = true ↔
      List.Lex (· < ·) (a.map pyStr) (b.map pyStr)) ∧
    isLess [Val.int 10] [Val.int 2] = true ∧
    (2 : Int) < 10 := by
  refine ⟨?_, by decide, by decide⟩
  induction a generalizing b with
  | nil =>
    cases b with
    | nil =>
      constructor
      · intro hfalse
        simp [isLess] at hfalse
      · intro hlex
        cases hlex
    | cons y bs => simp at h
  | cons x as ih =>
    cases b with
    | nil => simp at h
    | cons y bs =>
      have hlen : as.length = bs.length := by
        simpa using h
      rcases lt_trichotomy (pyStr x) (pyStr y) with hlt | heq | hgt
      · constructor
        · intro _
          exact List.Lex.rel hlt
        · intro _
          simp [isLess, (strLt_iff ..).mpr hlt]
      · have h1 : strLt (pyStr x) (pyStr y) = false := by
          rw [← Bool.not_eq_true, strLt_iff, heq]
          exact lt_irrefl _
        have h2 : strLt (pyStr y) (pyStr x) = false := by
          rw [← Bool.not_eq_true, strLt_iff, heq]
          exact lt_irrefl _
        rw [show isLess (x :: as) (y :: bs) = isLess as bs from by
          simp [isLess, h1, h2]]
        constructor
        · intro hh
          simp only [List.map_cons, heq]
          exact List.Lex.cons ((ih bs hlen).mp hh)
        · intro hlex
          simp only [List.map_cons, heq] at hlex
          cases hlex with
          | rel hr => exact absurd hr (lt_irrefl _)
          | cons hl => exact (ih bs hlen).mpr hl
      · have h1 : strLt (pyStr x) (pyStr y) = false := by
          rw [← Bool.not_eq_true, strLt_iff]
          exact not_lt_of_gt hgt
        have h2 : strLt (pyStr y) (pyStr x) = true := (strLt_iff ..).mpr hgt
        rw [show isLess (x :: as) (y :: bs) = false from by
          simp [isLess, h1, h2]]
        constructor
        · intro hh
          exact absurd hh (by simp)
        · intro hlex
          simp only [List.map_cons] at hlex
          generalize hpx : pyStr x = px at hlex hgt
          generalize hpy : pyStr y = py at hlex hgt
          cases hlex with
          | rel hr => exact absurd hr (lt_asymm hgt)
          | cons hl => exact absurd rfl (ne_of_gt hgt)

/-- C10, witness: the general equivalence applied to the singleton integer
tuples (10) and (2). -/
theorem C10_isLess_string_lex_witness :
    List.Lex (· < ·) ([Val.int 10].map pyStr) ([Val.int 2].map pyStr) :=
  ((C10_isLess_string_lex [Val.int 10] [Val.int 2] rfl).1).mp (by decide)

/-!
## Graph and executor (graph.py), join walk (`Join.__call__`)

A `Graph` holds the operator list and the list of join sub-graphs
(`_operations`, `_join_graphs`); each chaining method builds a brand-new
`Graph` from copies (`[*self._operations, ...]`) of both lists, so the
embedding of the chain methods as pure functions is faithful.  `run` walks
the operators: a source (`Read` / `ReadIterFactory`) replaces the current
stream; a `Join` asserts that a sub-graph is left, asserts the stream
exists, recursively runs the next sub-graph and combines; any other operator
asserts the stream exists and wraps it; a final assert rejects an empty
operator list.  The `assert` statements run eagerly when `run` is called
(`run` is not a generator); they are modelled as `GraphErr.assertFail`.
`Read`'s file contents are abstracted as the list of parsed rows; a missing
named input is `GraphErr.missingInput` (raised lazily in Python, eagerly
here — no theorem depends on the timing).
-/

inductive GraphErr where
  | assertFail | missingInput
deriving DecidableEq

/-- The operator set of the engine (rows fixed at `Val`).  Mappers and
reducers are carried as functions, mirroring the mapper/reducer objects. -/
inductive GOp where
  | readFile (rows : List (Row Val))
  | readIter (name : String)
  | mapOp (m : Row Val → List (Row Val))
  | reduceOp (red : List String → List (Row Val) → List (Row Val))
      (keys : List String)
  | sortOp (keys : List String)
  | joinOp (kind : JoinerKind) (sufA sufB : String) (keys : List String)

/-- `isinstance(operation, Read | ReadIterFactory)`. -/
def GOp.isSource : GOp → Bool
  | .readFile _ => true
  | .readIter _ => true
  | _ => false

def GOp.isUnary : GOp → Bool
  | .mapOp _ => true
  | .reduceOp _ _ => true
  | .sortOp _ => true
  | _ => false

/-- `tuple(row[key] for key in keys)`. -/
def keyTuple (keys : List String) (row : Row Val) : List Val :=
  keys.map (fun k => getD row k)

/-- `itertools.groupby`: maximal runs of consecutive rows with equal key
function value, paired with that value. -/
def groupRunsGo (f : Row Val → List Val) (k : List Val)
    (cur : List (Row Val)) : List (Row Val) → List (List Val × List (Row Val))
  | [] => [(k, cur.reverse)]
  | r :: rs =>
    if f r = k then groupRunsGo f k (r :: cur) rs
    else (k, cur.reverse) :: groupRunsGo f (f r) [r] rs

def groupRuns (f : Row Val → List Val) : List (Row Val) →
    List (List Val × List (Row Val))
  | [] => []
  | r :: rs => groupRunsGo f (f r) [r] rs

/-- `Join.__call__`, inner branch: skip right groups while their key is
`_is_less` than the current left key; on key equality invoke the joiner and
advance both sides. -/
def innerWalk (keys : List String) (sufA sufB : String) :
    List (List Val × List (Row Val)) → List (List Val × List (Row Val)) →
      List (Row Val)
  | [], _ => []
  | (ka, a) :: ga, gb =>
    match gb.dropWhile (fun p => isLess p.1 ka) with
    | (kb, b) :: gb' =>
      if ka = kb then
        innerJoiner keys sufA sufB a b ++ innerWalk keys sufA sufB ga gb'
      else innerWalk keys sufA sufB ga ((kb, b) :: gb')
    | [] => innerWalk keys sufA sufB ga []

/-- `Join.__call__`, outer branch: skipped right groups are emitted with an
empty left side; an unmatched left group is emitted with an empty right
side; remaining right groups are drained at the end. -/
def outerWalk (keys : List String) (sufA sufB : String) :
    List (List Val × List (Row Val)) → List (List Val × List (Row Val)) →
      List (Row Val)
  | [], gb => gb.flatMap (fun p => outerJoiner keys sufA sufB [] p.2)
  | (ka, a) :: ga, gb =>
    (gb.takeWhile (fun p => isLess p.1 ka)).flatMap
        (fun p => outerJoiner keys sufA sufB [] p.2) ++
      match gb.dropWhile (fun p => isLess p.1 ka) with
      | (kb, b) :: gb' =>
        if ka = kb then
          outerJoiner keys sufA sufB a b ++ outerWalk keys sufA sufB ga gb'
        else
          outerJoiner keys sufA sufB a [] ++
            outerWalk keys sufA sufB ga ((kb, b) :: gb')
      | [] =>
        outerJoiner keys sufA sufB a [] ++ outerWalk keys sufA sufB ga []

/-- `Join.__call__`, left branch (the right group is *not* advanced after a
match in the source). -/
def leftWalk (keys : List String) (sufA sufB : String) :
    List (List Val × List (Row Val)) → List (List Val × List (Row Val)) →
      List (Row Val)
  | [], _ => []
  | (ka, a) :: ga, gb =>
    match gb.dropWhile (fun p => isLess p.1 ka) with
    | (kb, b) :: gb' =>
      if ka = kb then
        leftJoiner keys sufA sufB a b ++
          leftWalk keys sufA sufB ga ((kb, b) :: gb')
      else
        leftJoiner keys sufA sufB a [] ++
          leftWalk keys sufA sufB ga ((kb, b) :: gb')
    | [] => leftJoiner keys sufA sufB a [] ++ leftWalk keys sufA sufB ga []

/-- `Join.__call__`, right branch (no advance after a match, no emission for
an unmatched left group; remaining right groups drained at the end). -/
def rightWalk (keys : List String) (sufA sufB : String) :
    List (List Val × List (Row Val)) → List (List Val × List (Row Val)) →
      List (Row Val)
  | [], gb => gb.flatMap (fun p => rightJoiner keys sufA sufB [] p.2)
  | (ka, a) :: ga, gb =>
    (gb.takeWhile (fun p => isLess p.1 ka)).flatMap
        (fun p => rightJoiner keys sufA sufB [] p.2) ++
      match gb.dropWhile (fun p => isLess p.1 ka) with
      | (kb, b) :: gb' =>
        if ka = kb then
          rightJoiner keys sufA sufB a b ++
            rightWalk keys sufA sufB ga ((kb, b) :: gb')
        else rightWalk keys sufA sufB ga ((kb, b) :: gb')
      | [] => rightWalk keys sufA sufB ga []

/-- The sort-merge walk for one `Join` operator. -/
def joinRun (kind : JoinerKind) (keys : List String) (sufA sufB : String)
    (l r : List (Row Val)) : List (Row Val) :=
  match kind with
  | .inner => innerWalk keys sufA sufB (groupRuns (keyTuple keys) l)
      (groupRuns (keyTuple keys) r)
  | .outer => outerWalk keys sufA sufB (groupRuns (keyTuple keys) l)
      (groupRuns (keyTuple keys) r)
  | .left => leftWalk keys sufA sufB (groupRuns (keyTuple keys) l)
      (groupRuns (keyTuple keys) r)
  | .right => rightWalk keys sufA sufB (groupRuns (keyTuple keys) l)
      (groupRuns (keyTuple keys) r)

/-- Modelled from the spec: `ExternalSort(keys)` lives in
`compgraph/external_sort.py`, which is not among the sources; §4.5 specifies
only that the stream comes out re-ordered ascending by the key tuple (the
spill/merge machinery is invisible at stream level), and §9 records that the
source coerces keys to strings before comparing, the same order the join
walk uses. -/
def externalSort (keys : List String) (rows : List (Row Val)) :
    List (Row Val) :=
  rows.mergeSort (fun a b => !(isLess (keyTuple keys b) (keyTuple keys a)))

/-- `data = operation(data)` for the non-source, non-join operators. -/
def GOp.applyUnary : GOp → List (Row Val) → List (Row Val)
  | .mapOp m, data => data.flatMap m
  | .reduceOp red keys, data =>
    (groupRuns (keyTuple keys) data).flatMap (fun p => red keys p.2)
  | .sortOp keys, data => externalSort keys data
  | _, data => data

/-- The named inputs (`kwargs`) of a run. -/
def Inputs : Type := String → Option (List (Row Val))

/-- The loop body of `Graph.run`: `subs` holds the (recursively computed)
results of the remaining join sub-graphs in order, `data` the current
stream (`None` before the first source). -/
def runAux (I : Inputs) : List (Except GraphErr (List (Row Val))) →
    Option (List (Row Val)) → List GOp → Except GraphErr (List (Row Val))
  | _, data, [] =>
    match data with
    | some d => .ok d
    | none => .error .assertFail
  | subs, _, .readFile rows :: rest => runAux I subs (some rows) rest
  | subs, _, .readIter name :: rest =>
    match I name with
    | some rows => runAux I subs (some rows) rest
    | none => .error .missingInput
  | subs, data, .joinOp kind sufA sufB keys :: rest =>
    match subs with
    | [] => .error .assertFail
    | s :: subs' =>
      match data with
      | none => .error .assertFail
      | some d =>
        match s with
        | .error e => .error e
        | .ok rrows =>
          runAux I subs' (some (joinRun kind keys sufA sufB d rrows)) rest
  | subs, data, .mapOp m :: rest =>
    match data with
    | none => .error .assertFail
    | some d => runAux I subs (some ((GOp.mapOp m).applyUnary d)) rest
  | subs, data, .reduceOp red keys :: rest =>
    match data with
    | none => .error .assertFail
    | some d => runAux I subs (some ((GOp.reduceOp red keys).applyUnary d)) rest
  | subs, data, .sortOp keys :: rest =>
    match data with
    | none => .error .assertFail
    | some d => runAux I subs (some ((GOp.sortOp keys).applyUnary d)) rest

/-- `Graph`: operator list plus one sub-graph per join, in order. -/
inductive CGraph where
  | mk (operations : List GOp) (joinGraphs : List CGraph)

def CGraph.operations : CGraph → List GOp
  | .mk ops _ => ops

def CGraph.joinGraphs : CGraph → List CGraph
  | .mk _ jgs => jgs

theorem sizeOf_mem_joinGraphs {jg g : CGraph} (h : jg ∈ g.joinGraphs) :
    sizeOf jg < sizeOf g := by
  cases g with
  | mk ops jgs =>
    simp only [CGraph.joinGraphs] at h
    have := List.sizeOf_lt_of_mem h
    simp only [CGraph.mk.sizeOf_spec]
    omega

/-- `Graph.run`: the sub-graphs are each run against the same inputs (the
Python code invokes `join_graph.run(**kwargs)` when its `Join` operator is
reached; evaluation order is immaterial in the pure model, and the error
of the earliest failing step is the one surfaced by `runAux`). -/
def CGraph.run (g : CGraph) (I : Inputs) :
    Except GraphErr (List (Row Val)) :=
  runAux I (g.joinGraphs.attach.map (fun jg => jg.1.run I)) none g.operations
termination_by sizeOf g
decreasing_by
  exact sizeOf_mem_joinGraphs jg.2

/-- `Graph.graph_from_iter`. -/
def graphFromIter (name : String) : CGraph :=
  .mk [.readIter name] []

/-- `Graph.graph_from_file` (file contents abstracted as parsed rows). -/
def graphFromFile (rows : List (Row Val)) : CGraph :=
  .mk [.readFile rows] []

/-- `Graph.map`. -/
def CGraph.mapG (g : CGraph) (m : Row Val → List (Row Val)) : CGraph :=
  .mk (g.operations ++ [.mapOp m]) g.joinGraphs

/-- `Graph.reduce`. -/
def CGraph.reduceG (g : CGraph)
    (red : List String → List (Row Val) → List (Row Val))
    (keys : List String) : CGraph :=
  .mk (g.operations ++ [.reduceOp red keys]) g.joinGraphs

/-- `Graph.sort`. -/
def CGraph.sortG (g : CGraph) (keys : List String) : CGraph :=
  .mk (g.operations ++ [.sortOp keys]) g.joinGraphs

/-- `Graph.join`. -/
def CGraph.joinG (g : CGraph) (kind : JoinerKind) (sufA sufB : String)
    (g₂ : CGraph) (keys : List String) : CGraph :=
  .mk (g.operations ++ [.joinOp kind sufA sufB keys]) (g.joinGraphs ++ [g₂])

theorem runAux_no_source_head (I : Inputs)
    (subs : List (Except GraphErr (List (Row Val)))) (ops : List GOp)
    (h : ∀ op, ops.head? = some op → op.isSource = false) :
    runAux I subs none ops = .error .assertFail := by
  cases ops with
  | nil => rfl
  | cons op rest =>
    have hop := h op rfl
    cases op with
    | readFile rows => simp [GOp.isSource] at hop
    | readIter name => simp [GOp.isSource] at hop
    | mapOp m => rfl
    | reduceOp red keys => rfl
    | sortOp keys => rfl
    | joinOp kind sufA sufB keys =>
      cases subs with
      | nil => rfl
      | cons s subs' => rfl

theorem runAux_skip_to_source (I : Inputs) (nB : String) (ops₂ : List GOp) :
    ∀ us : List GOp, (∀ u ∈ us, u.isUnary = true) →
      ∀ d : List (Row Val),
        runAux I [] (some d) (us ++ GOp.readIter nB :: ops₂) =
          runAux I [] none (GOp.readIter nB :: ops₂) := by
  intro us
  induction us with
  | nil =>
    intro _ d
    rfl
  | cons u us ih =>
    intro hu d
    have hu0 : u.isUnary = true := hu u (List.mem_cons_self ..)
    have hu' : ∀ v ∈ us, v.isUnary = true :=
      fun v hv => hu v (List.mem_cons_of_mem _ hv)
    cases u with
    | mapOp m => exact ih hu' _
    | reduceOp red keys => exact ih hu' _
    | sortOp keys => exact ih hu' _
    | readFile rows => simp [GOp.isUnary] at hu0
    | readIter name => simp [GOp.isUnary] at hu0
    | joinOp kind sufA sufB keys => simp [GOp.isUnary] at hu0

/-- C8, counterexample.  The graph [ReadIter "a", Map identity,
ReadIter "b"] has a source in third position; `run` does not reject it — it
runs to completion and yields source "b"'s rows, replacing the upstream
stream, instead of raising `MalformedGraph` and yielding no rows. -/
theorem C8_counterexample :
    (CGraph.mk [GOp.readIter "a", GOp.mapOp (fun r => [r]),
        GOp.readIter "b"] []).run
      (fun n => if n = "a" then some [[("x", Val.int 1)]]
        else if n = "b" then some [[("y", Val.int 2)]] else none) =
      .ok [[("y", Val.int 2)]] := by
  rw [CGraph.run]
  rfl

/-- C8, amended: when the first operator is not a source (or the operator
list is empty), `run` fails with an assertion error — eagerly, so the output
has no rows; a source operator in a later position is *not* rejected:
execution simply continues with the stream replaced by that source's rows,
discarding everything upstream. -/
theorem C8_run_amended :
    (∀ (g : CGraph) (I : Inputs),
      (∀ op, g.operations.head? = some op → op.isSource = false) →
      g.run I = .error .assertFail) ∧
    (∀ (nA nB : String) (us ops₂ : List GOp) (I : Inputs)
      (rowsA : List (Row Val)),
      (∀ u ∈ us, u.isUnary = true) → I nA = some rowsA →
      (CGraph.mk (GOp.readIter nA :: us ++ GOp.readIter nB :: ops₂) []).run I =
        (CGraph.mk (GOp.readIter nB :: ops₂) []).run I) := by
  constructor
  · intro g I h
    rw [CGraph.run]
    exact runAux_no_source_head I _ g.operations h
  · intro nA nB us ops₂ I rowsA hus hIA
    rw [CGraph.run, CGraph.run]
    show runAux I [] none (GOp.readIter nA :: us ++ GOp.readIter nB :: ops₂) =
      runAux I [] none (GOp.readIter nB :: ops₂)
    rw [show runAux I [] none
        (GOp.readIter nA :: us ++ GOp.readIter nB :: ops₂) =
        (match I nA with
         | some rows => runAux I [] (some rows)
            (us ++ GOp.readIter nB :: ops₂)
         | none => .error .missingInput) from rfl, hIA]
    exact runAux_skip_to_source I nB ops₂ us hus rowsA

/-- C8, witness for the amended theorem: a graph headed by a `Map` fails the
assertion, and [ReadIter "a", ReadIter "b"] runs like [ReadIter "b"]. -/
theorem C8_run_amended_witness :
    (CGraph.mk [GOp.mapOp (fun r => [r])] []).run (fun _ => none) =
      .error .assertFail ∧
    (CGraph.mk (GOp.readIter "a" :: [] ++ GOp.readIter "b" :: []) []).run
      (fun n => if n = "a" then some [[("x", Val.int 1)]]
        else if n = "b" then some [[("y", Val.int 3)]] else none) =
      (CGraph.mk (GOp.readIter "b" :: []) []).run
      (fun n => if n = "a" then some [[("x", Val.int 1)]]
        else if n = "b" then some [[("y", Val.int 3)]] else none) :=
  ⟨C8_run_amended.1 _ _ (by
      intro op hop
      simp only [CGraph.operations, List.head?_cons, Option.some_inj] at hop
      rw [← hop]
      rfl),
    C8_run_amended.2 "a" "b" [] [] _ [[("x", Val.int 1)]]
      (by intro u hu; simp at hu) (by decide)⟩

theorem runAux_append_unary (I : Inputs) (u : GOp) (hu : u.isUnary = true) :
    ∀ (ops : List GOp) (subs : List (Except GraphErr (List (Row Val))))
      (data : Option (List (Row Val))),
      runAux I subs data (ops ++ [u]) =
        (runAux I subs data ops).map u.applyUnary := by
  intro ops
  induction ops with
  | nil =>
    intro subs data
    cases data with
    | none =>
      cases u with
      | mapOp m => rfl
      | reduceOp red keys => rfl
      | sortOp keys => rfl
      | readFile rows => simp [GOp.isUnary] at hu
      | readIter name => simp [GOp.isUnary] at hu
      | joinOp kind sufA sufB keys => simp [GOp.isUnary] at hu
    | some d =>
      cases u with
      | mapOp m => rfl
      | reduceOp red keys => rfl
      | sortOp keys => rfl
      | readFile rows => simp [GOp.isUnary] at hu
      | readIter name => simp [GOp.isUnary] at hu
      | joinOp kind sufA sufB keys => simp [GOp.isUnary] at hu
  | cons op rest ih =>
    intro subs data
    cases op with
    | readFile rows => exact ih subs (some rows)
    | readIter name =>
      cases hI : I name with
      | some rows =>
        show (match I name with
          | some rows => runAux I subs (some rows) (rest ++ [u])
          | none => .error .missingInput) = _
        rw [hI]
        show runAux I subs (some rows) (rest ++ [u]) =
          ((match I name with
            | some rows => runAux I subs (some rows) rest
            | none => .error .missingInput) :
              Except GraphErr (List (Row Val))).map u.applyUnary
        rw [hI]
        exact ih subs (some rows)
      | none =>
        show (match I name with
          | some rows => runAux I subs (some rows) (rest ++ [u])
          | none => .error .missingInput) = _
        rw [hI]
        show (Except.error GraphErr.missingInput : Except GraphErr (List (Row Val))) =
          ((match I name with
            | some rows => runAux I subs (some rows) rest
            | none => .error .missingInput) :
              Except GraphErr (List (Row Val))).map u.applyUnary
        rw [hI]
        rfl
    | mapOp m =>
      cases data with
      | none => rfl
      | some d => exact ih subs _
    | reduceOp red keys =>
      cases data with
      | none => rfl
      | some d => exact ih subs _
    | sortOp keys =>
      cases data with
      | none => rfl
      | some d => exact ih subs _
    | joinOp kind sufA sufB keys =>
      cases subs with
      | nil => rfl
      | cons s subs' =>
        cases data with
        | none => rfl
        | some d =>
          cases s with
          | error e => rfl
          | ok rrows => exact ih subs' _

/-- C9: each chaining call builds a new graph whose operator list is the old
one with the new operator appended and whose join-graph list is the old one
(with the joined graph appended, for `join`); the original graph's fields
are untouched (the Python methods copy both lists), and running the original
graph is unaffected by the extension — running the extended graph equals
running the original and applying the appended stage to its output. -/
theorem C9_graph_extension (g : CGraph) (m : Row Val → List (Row Val))
    (red : List String → List (Row Val) → List (Row Val))
    (keysR keysS keysJ : List String) (kind : JoinerKind) (sufA sufB : String)
    (g₂ : CGraph) (I : Inputs) :
    ((g.mapG m).operations = g.operations ++ [.mapOp m] ∧
      (g.mapG m).joinGraphs = g.joinGraphs) ∧
    ((g.reduceG red keysR).operations = g.operations ++ [.reduceOp red keysR] ∧
      (g.reduceG red keysR).joinGraphs = g.joinGraphs) ∧
    ((g.sortG keysS).operations = g.operations ++ [.sortOp keysS] ∧
      (g.sortG keysS).joinGraphs = g.joinGraphs) ∧
    ((g.joinG kind sufA sufB g₂ keysJ).operations =
        g.operations ++ [.joinOp kind sufA sufB keysJ] ∧
      (g.joinG kind sufA sufB g₂ keysJ).joinGraphs = g.joinGraphs ++ [g₂]) ∧
    (g.mapG m).run I = (g.run I).map (fun rows => rows.flatMap m) ∧
    (g.reduceG red keysR).run I = (g.run I).map (fun rows =>
      (groupRuns (keyTuple keysR) rows).flatMap (fun p => red keysR p.2)) ∧
    (g.sortG keysS).run I = (g.run I).map (externalSort keysS) := by
  refine ⟨⟨rfl, rfl⟩, ⟨rfl, rfl⟩, ⟨rfl, rfl⟩, ⟨rfl, rfl⟩, ?_, ?_, ?_⟩
  · rw [show (g.mapG m).run I = runAux I
        (g.joinGraphs.attach.map (fun jg => jg.1.run I)) none
        (g.operations ++ [.mapOp m]) from by rw [CGraph.run]; rfl,
      runAux_append_unary I (.mapOp m) rfl, ← CGraph.run]
    rfl
  · rw [show (g.reduceG red keysR).run I = runAux I
        (g.joinGraphs.attach.map (fun jg => jg.1.run I)) none
        (g.operations ++ [.reduceOp red keysR]) from by rw [CGraph.run]; rfl,
      runAux_append_unary I (.reduceOp red keysR) rfl, ← CGraph.run]
    rfl
  · rw [show (g.sortG keysS).run I = runAux I
        (g.joinGraphs.attach.map (fun jg => jg.1.run I)) none
        (g.operations ++ [.sortOp keysS]) from by rw [CGraph.run]; rfl,
      runAux_append_unary I (.sortOp keysS) rfl, ← CGraph.run]
    rfl

end CompGraph
